import Mathlib

/-!
Verification of the manufactured-solution workflow of the nonlinear
Poisson notebook (`notebooks/nonlinear_poisson.ipynb`).

The notebook's own logic is a small symbolic pipeline:

* a nonlinear coefficient `q(u) = 1 + u**2` (cell defining `q`);
* SymPy symbols `x, y = sym.symbols('x[0], x[1]')`, the manufactured
  solution `u = 1 + x + 2*y`, the derived source term
  `f = -sym.diff(q(u)*sym.diff(u, x), x) - sym.diff(q(u)*sym.diff(u, y), y)`
  followed by `f = sym.simplify(f)`;
* C-code emission `u_code = sym.printing.ccode(u)`, `f_code = sym.printing.ccode(f)`
  (the notebook text notes that an emitted `M_PI` must be rewritten to `pi`
  for FEniCS `Expression` objects);
* the boundary predicate `def boundary(x, on_boundary): return on_boundary`;
* the error evaluation `np.max(u0_at_vertices - u_at_vertices)` and the
  per-vertex error table.

The shallow embedding below models symbolic expressions as a tree type
`Expr`, symbolic differentiation and simplification (polynomial normal
form), the ccode printer at the level of character lists, the spec's
lookup-table rewrite `M_PI -> pi`, the external evaluator's expression
grammar as an executable recursive-descent reader, and the numpy
broadcasting semantics used by the error evaluator.
-/

/-- A symbolic expression: immutable tree over integer constants, the
constant pi, named symbols, sums, products and natural powers.  This is
the tagged-variant representation of the SymPy expressions built in the
notebook (`1 + u**2`, `1 + x + 2*y`, sums and products produced by
`sym.diff`; every numeric constant in the notebook is an integer, and
integer constants keep every definition kernel-computable). -/
inductive Expr where
  | const : ℤ → Expr
  | pi : Expr
  | var : String → Expr
  | add : Expr → Expr → Expr
  | mul : Expr → Expr → Expr
  | pow : Expr → ℕ → Expr
deriving DecidableEq, Repr

/-- Numeric evaluation of a symbolic expression, given an assignment for
symbol names and a value for the constant pi. -/
def evalE (σ : String → ℚ) (piv : ℚ) : Expr → ℚ
  | .const c => (c : ℚ)
  | .pi => piv
  | .var s => σ s
  | .add a b => evalE σ piv a + evalE σ piv b
  | .mul a b => evalE σ piv a * evalE σ piv b
  | .pow a n => evalE σ piv a ^ n

/-- Symbolic differentiation with respect to the symbol named `s`,
modelling `sym.diff`: linear in sums, product rule, power/chain rule. -/
def diff : Expr → String → Expr
  | .const _, _ => .const 0
  | .pi, _ => .const 0
  | .var v, s => if v = s then .const 1 else .const 0
  | .add a b, s => .add (diff a s) (diff b s)
  | .mul a b, s => .add (.mul (diff a s) b) (.mul a (diff b s))
  | .pow a m, s =>
    match m with
    | 0 => .const 0
    | k + 1 => .mul (.mul (.const (k + 1)) (.pow a k)) (diff a s)

/-- Nonlinear coefficient from the notebook: `def q(u): return 1 + u**2`. -/
def q (u : Expr) : Expr := .add (.const 1) (.pow u 2)

/-- The first coordinate symbol, created with the literal name `x[0]`
(`x, y = sym.symbols('x[0], x[1]')`). -/
def x : Expr := .var "x[0]"

/-- The second coordinate symbol, created with the literal name `x[1]`. -/
def y : Expr := .var "x[1]"

/-- The manufactured exact solution `u = 1 + x + 2*y`. -/
def u : Expr := .add (.add (.const 1) x) (.mul (.const 2) y)

/-- The derived source term before simplification:
`f = -sym.diff(q(u)*sym.diff(u, x), x) - sym.diff(q(u)*sym.diff(u, y), y)`.
SymPy represents `-a - b` as `(-1)*a + (-1)*b`. -/
def f0 : Expr :=
  .add (.mul (.const (-1)) (diff (.mul (q u) (diff u "x[0]")) "x[0]"))
       (.mul (.const (-1)) (diff (.mul (q u) (diff u "x[1]")) "x[1]"))

/-! ### Polynomial normal form (the model of `sym.simplify`)

A monomial is a power of pi together with a sorted list of
(symbol name, positive exponent) pairs; a polynomial is a list of
(coefficient, monomial) terms kept in strictly decreasing graded
lexicographic order with nonzero coefficients, so the representation is
canonical. -/

/-- Monomial: power of pi, then symbol powers sorted by name. -/
abbrev NMon := ℕ × List (String × ℕ)

/-- Total degree of a monomial (pi counts as a symbol). -/
def monDeg (m : NMon) : ℕ := m.1 + (m.2.map Prod.snd).foldl (· + ·) 0

/-- Lexicographic comparison of sorted symbol-power lists; a symbol that
is earlier in the name order counts as the more significant one. -/
def monVarCmp : List (String × ℕ) → List (String × ℕ) → Ordering
  | [], [] => .eq
  | [], _ :: _ => .lt
  | _ :: _, [] => .gt
  | (n₁, e₁) :: t₁, (n₂, e₂) :: t₂ =>
    match compare n₁ n₂ with
    | .lt => .gt
    | .gt => .lt
    | .eq =>
      match compare e₁ e₂ with
      | .lt => .lt
      | .gt => .gt
      | .eq => monVarCmp t₁ t₂

/-- Graded lexicographic comparison of monomials. -/
def monCmp (m₁ m₂ : NMon) : Ordering :=
  match compare (monDeg m₁) (monDeg m₂) with
  | .lt => .lt
  | .gt => .gt
  | .eq =>
    match monVarCmp m₁.2 m₂.2 with
    | .lt => .lt
    | .gt => .gt
    | .eq => compare m₁.1 m₂.1

/-- Polynomial in canonical form: terms in strictly decreasing monomial
order, all coefficients nonzero. -/
abbrev NPoly := List (ℤ × NMon)

/-- Insert a term into a canonical polynomial, merging coefficients. -/
def polyInsertAux (c : ℤ) (m : NMon) : NPoly → NPoly
  | [] => [(c, m)]
  | (c', m') :: t =>
    match monCmp m m' with
    | .gt => (c, m) :: (c', m') :: t
    | .lt => (c', m') :: polyInsertAux c m t
    | .eq => if c + c' = 0 then t else (c + c', m') :: t

/-- Insert a possibly-zero term into a canonical polynomial. -/
def polyInsert (c : ℤ) (m : NMon) (p : NPoly) : NPoly :=
  if c = 0 then p else polyInsertAux c m p

/-- Polynomial addition. -/
def polyAdd (p₁ p₂ : NPoly) : NPoly :=
  p₂.foldl (fun acc t => polyInsert t.1 t.2 acc) p₁

/-- Insert a symbol power into a sorted symbol-power list. -/
def insVar (s : String) (e : ℕ) : List (String × ℕ) → List (String × ℕ)
  | [] => [(s, e)]
  | (s', e') :: t =>
    match compare s s' with
    | .lt => (s, e) :: (s', e') :: t
    | .gt => (s', e') :: insVar s e t
    | .eq => (s, e + e') :: t

/-- Monomial multiplication. -/
def monMul (m₁ m₂ : NMon) : NMon :=
  (m₁.1 + m₂.1, m₂.2.foldl (fun acc v => insVar v.1 v.2 acc) m₁.2)

/-- Polynomial multiplication. -/
def polyMul (p₁ p₂ : NPoly) : NPoly :=
  p₁.foldl (fun acc t =>
    p₂.foldl (fun acc' t' => polyInsert (t.1 * t'.1) (monMul t.2 t'.2) acc') acc) []

/-- Polynomial power. -/
def polyPow (p : NPoly) : ℕ → NPoly
  | 0 => [(1, (0, []))]
  | k + 1 => polyMul p (polyPow p k)

/-- Expansion of a symbolic expression into polynomial normal form. -/
def toPoly : Expr → NPoly
  | .const c => polyInsert c (0, []) []
  | .pi => [(1, (1, []))]
  | .var s => [(1, (0, [(s, 1)]))]
  | .add a b => polyAdd (toPoly a) (toPoly b)
  | .mul a b => polyMul (toPoly a) (toPoly b)
  | .pow a n => polyPow (toPoly a) n

/-- Rebuild the expression of one polynomial term. -/
def termExpr (c : ℤ) (m : NMon) : Expr :=
  let piFactors : List Expr :=
    match m.1 with
    | 0 => []
    | 1 => [.pi]
    | k + 2 => [.pow .pi (k + 2)]
  let varFactors : List Expr :=
    m.2.map fun v => if v.2 = 1 then .var v.1 else .pow (.var v.1) v.2
  match piFactors ++ varFactors with
  | [] => .const c
  | g :: gs =>
    let mexpr := gs.foldl .mul g
    if c = 1 then mexpr else .mul (.const c) mexpr

/-- Rebuild an expression (a left-nested sum of terms) from a canonical
polynomial. -/
def polyToExpr : NPoly → Expr
  | [] => .const 0
  | t :: ts => ts.foldl (fun acc t' => .add acc (termExpr t'.1 t'.2)) (termExpr t.1 t.2)

/-- Model of `sym.simplify`: expand to polynomial normal form and
rebuild the canonical expression. -/
def simplify (e : Expr) : Expr := polyToExpr (toPoly e)

/-- The simplified source term: the notebook's `f = sym.simplify(f)`. -/
def f : Expr := simplify f0

/-! ### The ccode printer (model of `sym.printing.ccode`)

The printer works on lists of characters.  It renders sums with the
SymPy/C conventions visible in the notebook output
(`f = -10*x[0] - 20*x[1] - 10`): terms are separated by `" + "`, a term
whose leading coefficient is negative is rendered after `" - "` with the
sign folded away, products use `*`, powers use `pow(base, e)`, symbols
are rendered by their literal names, and the constant pi is rendered by
the host macro name `M_PI` (the printer is parameterised by that name so
that the rewrite lemmas can speak about both renderings). -/

/-- Decimal digit character. -/
def digitChar : ℕ → Char
  | 0 => '0'
  | 1 => '1'
  | 2 => '2'
  | 3 => '3'
  | 4 => '4'
  | 5 => '5'
  | 6 => '6'
  | 7 => '7'
  | 8 => '8'
  | 9 => '9'
  | _ => '?'

/-- Little-endian digit characters of a natural number (fuel-driven so
that the definition is structural and kernel-reducible). -/
def natDigitsAux : ℕ → ℕ → List Char
  | 0, _ => []
  | _ + 1, 0 => []
  | fuel + 1, n + 1 => digitChar ((n + 1) % 10) :: natDigitsAux fuel ((n + 1) / 10)

/-- Decimal rendering of a natural number. -/
def renderNat (n : ℕ) : List Char :=
  if n = 0 then ['0'] else (natDigitsAux n n).reverse

/-- Rendering of an integer constant: optional sign and decimal digits. -/
def renderInt (c : ℤ) : List Char :=
  (if c < 0 then ['-'] else []) ++ renderNat c.natAbs

/-- Does a term start with a negative numeric coefficient?  SymPy's
printer folds such a sign into the `" - "` separator of the enclosing
sum. -/
def termIsNeg : Expr → Bool
  | .const c => decide (c < 0)
  | .mul a _ => termIsNeg a
  | _ => false

/-- Printing context: a whole sum, a term of a sum, a term with its
leading sign stripped, or a factor of a product. -/
inductive PCtx where
  | sum
  | term
  | termAbs
  | fac
deriving DecidableEq, Repr

/-- The printer.  Single structural recursion on the expression with the
context as a tag, so every equation holds definitionally (the context
fallthroughs of SymPy's printer are inlined so that each recursive call
is on a strict subterm). -/
def ccodeGo (pn : List Char) : PCtx → Expr → List Char
  | .sum, .add a b =>
    ccodeGo pn .sum a ++
      (if termIsNeg b then ' ' :: '-' :: ' ' :: ccodeGo pn .termAbs b
       else ' ' :: '+' :: ' ' :: ccodeGo pn .term b)
  | _, .add a b =>
    '(' :: (ccodeGo pn .sum a ++
      (if termIsNeg b then ' ' :: '-' :: ' ' :: ccodeGo pn .termAbs b
       else ' ' :: '+' :: ' ' :: ccodeGo pn .term b)) ++ [')']
  | .termAbs, .const c => renderInt (-c)
  | _, .const c => renderInt c
  | .termAbs, .mul a b => ccodeGo pn .termAbs a ++ '*' :: ccodeGo pn .fac b
  | _, .mul a b => ccodeGo pn .term a ++ '*' :: ccodeGo pn .fac b
  | _, .pow a n =>
    'p' :: 'o' :: 'w' :: '(' :: (ccodeGo pn .sum a ++ ',' :: ' ' :: renderNat n ++ [')'])
  | _, .var s => s.data
  | _, .pi => pn

/-- The characters of the host macro name for pi. -/
def mpiChars : List Char := ['M', '_', 'P', 'I']

/-- The characters of the target symbolic name for pi. -/
def piChars : List Char := ['p', 'i']

/-- The raw ccode rendering (pi rendered as `M_PI`), as characters. -/
def ccodeChars (e : Expr) : List Char := ccodeGo mpiChars .sum e

/-- The raw ccode rendering, as a string: the notebook's
`sym.printing.ccode`. -/
def ccode (e : Expr) : String := String.mk (ccodeChars e)

/-- The notebook's `u_code = sym.printing.ccode(u)`. -/
def u_code : String := ccode u

/-- The notebook's `f_code = sym.printing.ccode(f)`. -/
def f_code : String := ccode f

/-! ### The pi rewrite (lookup table post-processing)

The notebook text: "The primary example is that `M_PI` for pi in C/C++
must be replaced by `pi` for `Expression` objects."  Following the spec,
the Code Emitter applies a fixed, extensible lookup table of
pattern/replacement pairs to the raw ccode output; the table contains at
least `M_PI -> pi`. -/

/-- Greedy left-to-right replacement of every occurrence of `pat` by
`rep` in a character list.  Fuel-driven (fuel bounds the number of
characters still to scan) so the definition is structural. -/
def replaceAllAux (pat rep : List Char) : ℕ → List Char → List Char
  | 0, s => s
  | _ + 1, [] => []
  | fuel + 1, c :: cs =>
    if pat.isPrefixOf (c :: cs) then
      rep ++ replaceAllAux pat rep fuel (List.drop pat.length (c :: cs))
    else
      c :: replaceAllAux pat rep fuel cs

/-- Replace every occurrence of `pat` by `rep` (empty patterns are left
alone, matching the behaviour of a lookup-table rewrite). -/
def replaceAll (pat rep s : List Char) : List Char :=
  if pat.isEmpty then s else replaceAllAux pat rep s.length s

/-- The Code Emitter's rewrite table: the host macro name for pi maps to
the constant name understood by FEniCS `Expression` objects.  The table
is a list, so the design admits further entries. -/
def rewriteTable : List (List Char × List Char) := [(mpiChars, piChars)]

/-- Full emission: raw ccode rendering followed by the lookup-table
rewrite. -/
def emitChars (e : Expr) : List Char :=
  rewriteTable.foldl (fun s t => replaceAll t.1 t.2 s) (ccodeChars e)

/-- Full emission as a string. -/
def emit (e : Expr) : String := String.mk (emitChars e)

/-- Does the constant pi occur in an expression? -/
def containsPi : Expr → Bool
  | .const _ => false
  | .pi => true
  | .var _ => false
  | .add a b => containsPi a || containsPi b
  | .mul a b => containsPi a || containsPi b
  | .pow a _ => containsPi a

/-- Does the symbol named `s` occur in an expression? -/
def occursVar (s : String) : Expr → Bool
  | .const _ => false
  | .pi => false
  | .var v => v = s
  | .add a b => occursVar s a || occursVar s b
  | .mul a b => occursVar s a || occursVar s b
  | .pow a _ => occursVar s a

/-- Do all symbols of the expression satisfy the predicate? -/
def varsAll (p : String → Bool) : Expr → Bool
  | .const _ => true
  | .pi => true
  | .var v => p v
  | .add a b => varsAll p a && varsAll p b
  | .mul a b => varsAll p a && varsAll p b
  | .pow a _ => varsAll p a

/-- The workflow's expressions use only the two coordinate symbols, with
their literal indexed-access names. -/
def coordOnly (e : Expr) : Bool :=
  varsAll (fun s => s = "x[0]" || s = "x[1]") e

/-! ### Solve invocation inputs (external collaborator)

The notebook hands the external solver: `mesh = UnitSquareMesh(8, 8)`
(the variable `n = 16` defined in the same cell is never read),
`FunctionSpace(mesh, 'P', 1)`, `Expression(u_code, degree=1)`,
`Expression(f_code, degree=1)`, the boundary predicate, and — in the
second invocation only — `solver_parameters` with
`{"newton_solver": {"relative_tolerance": 1e-6}}`.  Only these inputs
are modelled; the solve itself is a black box. -/

/-- The notebook's boundary predicate:
`def boundary(x, on_boundary): return on_boundary`. -/
def boundary (_x : ℚ × ℚ) (on_boundary : Bool) : Bool := on_boundary

/-- The unused resolution variable from the mesh cell: `n = 16`. -/
def n : ℕ := 16

/-- Everything this workflow passes to one external solve invocation.
The relative tolerance is `none` when the library default is used. -/
structure SolveConfig where
  meshRes : ℕ × ℕ
  degree : ℕ
  uCode : String
  fCode : String
  relTolNumer : Option (ℤ × ℕ)
deriving DecidableEq, Repr

/-- The two solve invocations performed by the notebook, as a function
of a hypothetical value of the (unread) variable `n`.  The mesh is
`UnitSquareMesh(8, 8)` with literal arguments, the degree is 1, the
emitted strings are `u_code` and `f_code`, and only the second
invocation overrides the Newton relative tolerance (to `1e-6`, stored
as the pair (1, 6) for numerator and power-of-ten denominator). -/
def workflowConfigs (_n : ℕ) : SolveConfig × SolveConfig :=
  ({ meshRes := (8, 8), degree := 1, uCode := u_code, fCode := f_code,
     relTolNumer := none },
   { meshRes := (8, 8), degree := 1, uCode := u_code, fCode := f_code,
     relTolNumer := some (1, 6) })

/-! ### Error evaluator (model of `print_max_error` and `print_errors`)

`print_max_error` computes `np.max(u0_at_vertices - u_at_vertices)`.
The subtraction of two numpy 1-d arrays follows numpy's documented
broadcasting rule: equal lengths subtract elementwise; a length-1
operand is broadcast against the other operand; any other length
combination raises a `ValueError`.  `np.max` of an empty array also
raises a `ValueError`.  The model is generic in the element type so
that its theorems apply to any ordered numeric sample type. -/

/-- Elementwise subtraction of two 1-d arrays with numpy broadcasting. -/
def npSub {α : Type} [Sub α] (a b : List α) : Except String (List α) :=
  if a.length = b.length then
    .ok (List.zipWith (· - ·) a b)
  else
    match a, b with
    | [av], _ => .ok (b.map fun bv => av - bv)
    | _, [bv] => .ok (a.map fun av => av - bv)
    | _, _ => .error "operands could not be broadcast together"

/-- Model of np.max on a 1-d array: an error on an empty array, otherwise
the maximum element. -/
def npMax {α : Type} [Max α] : List α → Except String α
  | [] => .error "zero-size array to reduction operation maximum"
  | v :: vs => .ok (vs.foldl max v)

/-- The value computed by `print_max_error`: the maximum over vertices
of `u0_at_vertices - u_at_vertices` (interpolated exact values minus
computed values). -/
def printMaxErrorVal {α : Type} [Sub α] [Max α] (u0v uv : List α) : Except String α :=
  npSub u0v uv >>= npMax

/-- The per-vertex rows printed by `print_errors`: the loop
`for i, x in enumerate(coor)` produces, for each coordinate in order,
`(coor[i], u0_at_vertices[i] - u_at_vertices[i])`; indexing past the end
of a value array raises, modelled by `none`. -/
def printErrorsRows {α : Type} [Sub α] :
    List (ℚ × ℚ) → List α → List α → Option (List ((ℚ × ℚ) × α))
  | [], _, _ => some []
  | c :: ct, a :: as, b :: bs =>
    (printErrorsRows ct as bs).map fun rows => (c, a - b) :: rows
  | _ :: _, _, _ => none

/-! ### Helper lemmas about the error evaluator -/

/-- The left fold of `max` over a list is the start value or a member. -/
theorem foldlMax_mem {α : Type} [LinearOrder α] (vs : List α) (v : α) :
    vs.foldl max v = v ∨ vs.foldl max v ∈ vs := by
  induction vs generalizing v with
  | nil => exact Or.inl rfl
  | cons w ws ih =>
    simp only [List.foldl_cons]
    rcases ih (max v w) with h | h
    · rcases max_choice v w with hm | hm
      · exact Or.inl (h.trans hm)
      · rw [hm] at h ⊢
        rw [h]
        exact Or.inr (List.mem_cons_self w ws)
    · exact Or.inr (List.mem_cons_of_mem w h)

/-- The left fold of `max` bounds the start value and every member. -/
theorem foldlMax_le {α : Type} [LinearOrder α] (vs : List α) (v : α) :
    v ≤ vs.foldl max v ∧ ∀ w ∈ vs, w ≤ vs.foldl max v := by
  induction vs generalizing v with
  | nil => exact ⟨le_refl v, by simp⟩
  | cons w ws ih =>
    refine ⟨(le_max_left v w).trans (ih (max v w)).1, ?_⟩
    intro w' hw'
    rcases List.mem_cons.mp hw' with rfl | hw'
    · exact (le_max_right v w').trans (ih (max v w')).1
    · exact (ih (max v w)).2 w' hw'

/-- With matching lengths, the per-vertex rows are exactly the zip of
the coordinates with the signed differences. -/
theorem printErrorsRows_eq_zip {α : Type} [Sub α] :
    ∀ (coor : List (ℚ × ℚ)) (u0v uv : List α),
      coor.length = u0v.length → coor.length = uv.length →
      printErrorsRows coor u0v uv =
        some (coor.zip (List.zipWith (· - ·) u0v uv)) := by
  intro coor
  induction coor with
  | nil => intro u0v uv _ _; rfl
  | cons c ct ih =>
    intro u0v uv h1 h2
    match u0v, uv with
    | a :: as, b :: bs =>
      simp only [List.length_cons, Nat.succ.injEq] at h1 h2
      simp [printErrorsRows, ih as bs h1 h2, List.zip]

/-! ### Claim theorems: derivation, error evaluator, boundary, n -/

/-- C1: Manufactured-solution identity.  For the exact solution
`u = 1 + x + 2y` and `q(u) = 1 + u^2`, the source term `f` produced by
the derivator satisfies the governing PDE in strong form exactly: the
symbolic expression `-d/dx(q(u) du/dx) - d/dy(q(u) du/dy) - f`
(i.e. `f0 + (-1)*f`) simplifies to `0`. -/
theorem manufactured_solution_identity :
    simplify (.add f0 (.mul (.const (-1)) f)) = .const 0 := by decide

/-- C2: Literal derivation check.  The derived and simplified source
term is `-10*x - 20*y - 10`, and its emitted code string is exactly
`-10*x[0] - 20*x[1] - 10`. -/
theorem literal_derivation_check :
    f = .add (.add (.mul (.const (-10)) x) (.mul (.const (-20)) y)) (.const (-10)) ∧
      f_code = "-10*x[0] - 20*x[1] - 10" := by
  constructor <;> decide

/-- C5 counterexample: the error evaluator does not raise on every pair
of sequences of differing lengths — numpy broadcasting silently expands
a length-1 operand, so `print_max_error` on samples `[0, 0]` and `[1]`
returns the numeric value `-1` instead of raising. -/
theorem shape_mismatch_broadcast_cex :
    ([0, 0] : List ℤ).length ≠ ([1] : List ℤ).length ∧
      printMaxErrorVal ([0, 0] : List ℤ) [1] = .ok (-1) := by
  constructor
  · decide
  · rfl

/-- C5 (amended): feeding the error evaluator value sequences of
differing lengths raises an error and returns no numeric result,
provided neither sequence has length 1; a length-1 sequence is instead
silently broadcast by numpy. -/
theorem shape_mismatch_detection {α : Type} [Sub α] [Max α] (a b : List α)
    (hne : a.length ≠ b.length) (ha : a.length ≠ 1) (hb : b.length ≠ 1) :
    ∃ msg, printMaxErrorVal a b = .error msg := by
  refine ⟨"operands could not be broadcast together", ?_⟩
  unfold printMaxErrorVal npSub
  rw [if_neg hne]
  match a, ha, b, hb with
  | [], _, [], _ => simp at hne
  | [], _, _ :: _ :: _, _ => rfl
  | [_], ha, _, _ => simp at ha
  | _ :: _ :: _, _, [], _ => rfl
  | _ :: _ :: _, _, [_], hb => simp at hb
  | _ :: _ :: _, _, _ :: _ :: _, _ => rfl

/-- C5 witness: concrete differing lengths (2 and 3, neither 1) make the
error evaluator raise. -/
theorem shape_mismatch_detection_witness :
    ([0, 0] : List ℤ).length ≠ [1, 1, 1].length ∧
      ∃ msg, printMaxErrorVal ([0, 0] : List ℤ) [1, 1, 1] = .error msg :=
  ⟨by decide, shape_mismatch_detection [0, 0] [1, 1, 1] (by decide) (by decide) (by decide)⟩

/-- C6: given equal-length nonempty vertex samples of the interpolated
exact solution and of the computed solution, `print_max_error` reports
the maximum over all vertices of the signed difference (exact minus
computed), and `print_errors` produces exactly the per-vertex table of
(vertex coordinates, signed difference). -/
theorem error_evaluator_reports_max {α : Type} [LinearOrder α] [Sub α]
    (u0v uv : List α) (coor : List (ℚ × ℚ))
    (hlen : u0v.length = uv.length) (hne : u0v ≠ [])
    (hco : coor.length = u0v.length) :
    ∃ m, printMaxErrorVal u0v uv = .ok m ∧
      m ∈ List.zipWith (· - ·) u0v uv ∧
      (∀ d ∈ List.zipWith (· - ·) u0v uv, d ≤ m) ∧
      printErrorsRows coor u0v uv =
        some (coor.zip (List.zipWith (· - ·) u0v uv)) := by
  match u0v, uv, hlen with
  | a :: as, b :: bs, hlen =>
    refine ⟨(List.zipWith (· - ·) as bs).foldl max (a - b), ?_, ?_, ?_, ?_⟩
    · unfold printMaxErrorVal npSub
      rw [if_pos hlen]
      rfl
    · rcases foldlMax_mem (List.zipWith (· - ·) as bs) (a - b) with h | h
      · rw [h]; exact List.mem_cons_self _ _
      · exact List.mem_cons_of_mem _ h
    · intro d hd
      rcases List.mem_cons.mp hd with rfl | hd
      · exact (foldlMax_le (List.zipWith (· - ·) as bs) (a - b)).1
      · exact (foldlMax_le (List.zipWith (· - ·) as bs) (a - b)).2 d hd
    · exact printErrorsRows_eq_zip coor (a :: as) (b :: bs) hco
        (hco.trans hlen)
  | [], _, _ => exact absurd rfl hne

/-- C6 witness: a concrete two-vertex sample. -/
theorem error_evaluator_reports_max_witness :
    ([3, 1] : List ℤ).length = ([1, 2] : List ℤ).length ∧
      ∃ m, printMaxErrorVal ([3, 1] : List ℤ) [1, 2] = .ok m ∧
        m ∈ List.zipWith (· - ·) ([3, 1] : List ℤ) [1, 2] ∧
        (∀ d ∈ List.zipWith (· - ·) ([3, 1] : List ℤ) [1, 2], d ≤ m) ∧
        printErrorsRows [(0, 0), (1, 1)] ([3, 1] : List ℤ) [1, 2] =
          some ([(0, 0), (1, 1)].zip (List.zipWith (· - ·) ([3, 1] : List ℤ) [1, 2])) :=
  ⟨rfl, error_evaluator_reports_max [3, 1] [1, 2] [(0, 0), (1, 1)] rfl (by decide) rfl⟩

/-- C7 counterexample: the boundary predicate of this workflow does not
return true for every point and flag — it returns the flag itself, so it
returns false at an interior point with the flag false. -/
theorem boundary_not_always_true :
    boundary ((1 : ℚ) / 2, (1 : ℚ) / 2) false = false := rfl

/-- C7 (amended): the boundary predicate returns its on-boundary flag;
in particular it returns true precisely whenever the flag is true, so a
Dirichlet condition applies at every boundary point. -/
theorem boundary_returns_flag :
    (∀ p : ℚ × ℚ, boundary p true = true) ∧
      (∀ (p : ℚ × ℚ) (b : Bool), boundary p b = b) :=
  ⟨fun _ => rfl, fun _ _ => rfl⟩

/-- C9: the workflow's solver-facing data do not depend on the unread
variable `n`: for any two values of `n`, both solve invocations receive
identical mesh resolutions (always `(8, 8)`), degrees, emitted strings
and tolerance settings. -/
theorem workflow_independent_of_n :
    (∀ k₁ k₂ : ℕ, workflowConfigs k₁ = workflowConfigs k₂) ∧
      (∀ k : ℕ, (workflowConfigs k).1.meshRes = (8, 8) ∧
        (workflowConfigs k).2.meshRes = (8, 8)) :=
  ⟨fun _ _ => rfl, fun _ => ⟨rfl, rfl⟩⟩

/-! ### Correctness of the lookup-table rewrite -/

/-- Skipping a left part none of whose characters belong to the pattern:
an occurrence of the pattern in an append must lie in the right part. -/
theorem infix_append_of_disjoint {pat a b : List Char}
    (hd : ∀ c ∈ a, c ∉ pat) (h : pat <:+: a ++ b) : pat <:+: b := by
  induction a with
  | nil => exact h
  | cons d a' ih =>
    rcases List.infix_cons_iff.mp h with hpre | hinf
    · match pat, hpre with
      | [], _ => exact List.nil_infix
      | p :: pt, hpre =>
        have hdp := (List.cons_prefix_cons.mp hpre).1
        exact absurd (hdp ▸ List.mem_cons_self p pt)
          (hd d (List.mem_cons_self d a'))
    · exact ih (fun c hc => hd c (List.mem_cons_of_mem d hc)) hinf

/-- A prefix of the rewrite output whose characters avoid the
replacement is a prefix of the input. -/
theorem prefix_of_replaceAllAux {pat rep : List Char} (hrep : rep ≠ []) :
    ∀ (fuel : ℕ) (s q : List Char), (∀ c ∈ q, c ∉ rep) →
      q <+: replaceAllAux pat rep fuel s → q <+: s := by
  intro fuel
  induction fuel with
  | zero => intro s q _ h; exact h
  | succ fuel ih =>
    intro s q hq h
    match s with
    | [] => exact h
    | c :: cs =>
      by_cases hpre : pat.isPrefixOf (c :: cs)
      · rw [replaceAllAux, if_pos hpre] at h
        match q, hq, h with
        | [], _, _ => exact List.nil_prefix
        | d :: qt, hq, h =>
          match rep, hrep, h with
          | r :: rt, _, h =>
            have : d = r := (List.cons_prefix_cons.mp h).1
            exact absurd (this ▸ List.mem_cons_self r rt)
              (hq d (List.mem_cons_self d qt))
      · rw [replaceAllAux, if_neg hpre] at h
        match q, hq, h with
        | [], _, _ => exact List.nil_prefix
        | d :: qt, hq, h =>
          have hd := (List.cons_prefix_cons.mp h).1
          have ht := ih cs qt (fun c hc => hq c (List.mem_cons_of_mem d hc))
            (List.cons_prefix_cons.mp h).2
          exact hd ▸ List.cons_prefix_cons.mpr ⟨rfl, ht⟩

/-- After the rewrite, the pattern no longer occurs, provided pattern
and replacement are nonempty and share no characters, and the fuel
covers the input. -/
theorem not_infix_replaceAllAux {pat rep : List Char} (hpat : pat ≠ [])
    (hrep : rep ≠ []) (hdisj : ∀ c ∈ rep, c ∉ pat) :
    ∀ (fuel : ℕ) (s : List Char), s.length ≤ fuel →
      ¬ pat <:+: replaceAllAux pat rep fuel s := by
  intro fuel
  induction fuel with
  | zero =>
    intro s hs h
    rw [List.length_eq_zero.mp (Nat.le_zero.mp hs)] at h
    exact hpat (List.eq_nil_of_infix_nil h)
  | succ fuel ih =>
    intro s hs h
    match s with
    | [] => exact hpat (List.eq_nil_of_infix_nil h)
    | c :: cs =>
      by_cases hpre : pat.isPrefixOf (c :: cs)
      · rw [replaceAllAux, if_pos hpre] at h
        have hlen : (List.drop pat.length (c :: cs)).length ≤ fuel := by
          have h1 : 1 ≤ pat.length := by
            match pat, hpat with
            | p :: pt, _ => exact Nat.succ_le_succ (Nat.zero_le _)
          simp only [List.length_cons] at hs
          simp only [List.length_drop, List.length_cons]
          omega
        exact ih _ hlen (infix_append_of_disjoint hdisj h)
      · rw [replaceAllAux, if_neg hpre] at h
        rcases List.infix_cons_iff.mp h with hp | hinf
        · match pat, hpat, hp with
          | p :: pt, _, hp =>
            have hc : p = c := (List.cons_prefix_cons.mp hp).1
            have hqt : pt <+: replaceAllAux (p :: pt) rep fuel cs :=
              (List.cons_prefix_cons.mp hp).2
            have hptcs : pt <+: cs :=
              prefix_of_replaceAllAux hrep fuel cs pt
                (fun d hdp hdr => hdisj d hdr (List.mem_cons_of_mem p hdp)) hqt
            have : (p :: pt).isPrefixOf (c :: cs) := by
              rw [List.isPrefixOf_iff_prefix]
              exact hc ▸ List.cons_prefix_cons.mpr ⟨rfl, hptcs⟩
            exact hpre this
        · exact ih cs (by simpa using Nat.le_of_succ_le_succ (by simpa using hs)) hinf

/-- If the pattern occurs in the input, the replacement occurs in the
rewrite output. -/
theorem rep_infix_replaceAllAux {pat rep : List Char} (hpat : pat ≠ []) :
    ∀ (fuel : ℕ) (s : List Char), s.length ≤ fuel → pat <:+: s →
      rep <:+: replaceAllAux pat rep fuel s := by
  intro fuel
  induction fuel with
  | zero =>
    intro s hs h
    rw [List.length_eq_zero.mp (Nat.le_zero.mp hs)] at h
    exact absurd (List.eq_nil_of_infix_nil h) hpat
  | succ fuel ih =>
    intro s hs h
    match s with
    | [] => exact absurd (List.eq_nil_of_infix_nil h) hpat
    | c :: cs =>
      by_cases hpre : pat.isPrefixOf (c :: cs)
      · rw [replaceAllAux, if_pos hpre]
        exact ⟨[], replaceAllAux pat rep fuel (List.drop pat.length (c :: cs)), by simp⟩
      · rw [replaceAllAux, if_neg hpre]
        rcases List.infix_cons_iff.mp h with hp | hinf
        · exact absurd (List.isPrefixOf_iff_prefix.mpr hp) hpre
        · exact List.infix_cons
            (ih cs (Nat.le_of_succ_le_succ (by simpa using hs)) hinf)

/-- Extending an infix occurrence on the left. -/
theorem infix_app_left {l m : List Char} (a : List Char) (h : l <:+: m) :
    l <:+: a ++ m :=
  h.trans ⟨a, [], by simp⟩

/-- Extending an infix occurrence on the right. -/
theorem infix_app_right {l m : List Char} (b : List Char) (h : l <:+: m) :
    l <:+: m ++ b :=
  h.trans ⟨[], b, by simp⟩

/-- Whenever pi occurs in the expression, the printer's name for pi
occurs in the printed characters, in every printing context. -/
theorem pn_infix_ccodeGo (pn : List Char) :
    ∀ (e : Expr) (ctx : PCtx), containsPi e = true → pn <:+: ccodeGo pn ctx e := by
  intro e
  induction e with
  | const c => intro ctx h; simp [containsPi] at h
  | pi => intro ctx h; cases ctx <;> exact List.infix_refl pn
  | var s => intro ctx h; simp [containsPi] at h
  | add a b iha ihb =>
    intro ctx h
    simp only [containsPi, Bool.or_eq_true] at h
    have core : pn <:+: ccodeGo pn .sum a ++
        (if termIsNeg b then ' ' :: '-' :: ' ' :: ccodeGo pn .termAbs b
         else ' ' :: '+' :: ' ' :: ccodeGo pn .term b) := by
      rcases h with h | h
      · exact infix_app_right _ (iha .sum h)
      · by_cases hn : termIsNeg b
        · rw [if_pos hn]
          exact infix_app_left _
            (List.infix_cons (List.infix_cons (List.infix_cons (ihb .termAbs h))))
        · rw [if_neg hn]
          exact infix_app_left _
            (List.infix_cons (List.infix_cons (List.infix_cons (ihb .term h))))
    cases ctx
    · exact core
    · exact List.infix_cons (infix_app_right _ core)
    · exact List.infix_cons (infix_app_right _ core)
    · exact List.infix_cons (infix_app_right _ core)
  | mul a b iha ihb =>
    intro ctx h
    simp only [containsPi, Bool.or_eq_true] at h
    cases ctx with
    | termAbs =>
      rcases h with h | h
      · exact infix_app_right _ (iha .termAbs h)
      · exact infix_app_left _ (List.infix_cons (ihb .fac h))
    | sum =>
      rcases h with h | h
      · exact infix_app_right _ (iha .term h)
      · exact infix_app_left _ (List.infix_cons (ihb .fac h))
    | term =>
      rcases h with h | h
      · exact infix_app_right _ (iha .term h)
      · exact infix_app_left _ (List.infix_cons (ihb .fac h))
    | fac =>
      rcases h with h | h
      · exact infix_app_right _ (iha .term h)
      · exact infix_app_left _ (List.infix_cons (ihb .fac h))
  | pow a k iha =>
    intro ctx h
    simp only [containsPi] at h
    cases ctx <;>
      exact List.infix_cons (List.infix_cons (List.infix_cons (List.infix_cons
        (infix_app_right _ (infix_app_right _ (iha .sum h))))))

/-- C4: pi-rewrite.  For every symbolic expression containing the
constant pi (rendered by the raw printer via the host macro name
`M_PI`), the emitted characters contain the target name `pi` and do not
contain `M_PI`; the rewrite is driven by the extensible lookup table
`rewriteTable`, which contains the entry `M_PI -> pi`. -/
theorem pi_rewrite (e : Expr) (h : containsPi e = true) :
    piChars <:+: emitChars e ∧ ¬ mpiChars <:+: emitChars e ∧
      (mpiChars, piChars) ∈ rewriteTable := by
  have hemit : emitChars e = replaceAll mpiChars piChars (ccodeChars e) := rfl
  refine ⟨?_, ?_, by simp [rewriteTable]⟩
  · rw [hemit]
    unfold replaceAll
    rw [if_neg (by decide)]
    exact rep_infix_replaceAllAux (by decide) _ _ (le_refl _)
      (pn_infix_ccodeGo mpiChars e .sum h)
  · rw [hemit]
    unfold replaceAll
    rw [if_neg (by decide)]
    exact not_infix_replaceAllAux (by decide) (by decide) (by decide) _ _ (le_refl _)

/-- C4 witness: the expression that is just the constant pi. -/
theorem pi_rewrite_witness :
    containsPi Expr.pi = true ∧
      (piChars <:+: emitChars Expr.pi ∧ ¬ mpiChars <:+: emitChars Expr.pi ∧
        (mpiChars, piChars) ∈ rewriteTable) :=
  ⟨rfl, pi_rewrite Expr.pi rfl⟩

/-! ### The external evaluator's expression grammar

FEniCS `Expression` objects evaluate C-syntax arithmetic over the
coordinate references `x[0]`, `x[1]`, the constant name `pi`, integer
literals, `+`, `-`, `*` and `pow`.  The grammar is modelled as a parse
tree together with an executable fuel-driven recursive-descent reader
over character lists (fuel bounds the call depth, so the definition is
structural and kernel-computable). -/

/-- Parse tree of the external evaluator's expression grammar. -/
inductive CExpr where
  | num : ℤ → CExpr
  | cpi : CExpr
  | cx0 : CExpr
  | cx1 : CExpr
  | cadd : CExpr → CExpr → CExpr
  | csub : CExpr → CExpr → CExpr
  | cmul : CExpr → CExpr → CExpr
  | cpow : CExpr → ℕ → CExpr
deriving DecidableEq, Repr

/-- Numeric evaluation of a parse tree at a coordinate pair, with a
value for the constant `pi`. -/
def evalC (piv a b : ℚ) : CExpr → ℚ
  | .num v => (v : ℚ)
  | .cpi => piv
  | .cx0 => a
  | .cx1 => b
  | .cadd s t => evalC piv a b s + evalC piv a b t
  | .csub s t => evalC piv a b s - evalC piv a b t
  | .cmul s t => evalC piv a b s * evalC piv a b t
  | .cpow s k => evalC piv a b s ^ k

/-- Is the character a decimal digit?  (Explicit enumeration of the ten
digit characters.) -/
def isDigitC (c : Char) : Bool :=
  c == '0' || c == '1' || c == '2' || c == '3' || c == '4' ||
    c == '5' || c == '6' || c == '7' || c == '8' || c == '9'

/-- Numeric value of a digit character. -/
def charDigit (c : Char) : ℕ := c.toNat - 48

/-- Read a nonempty run of digits as a natural number. -/
def parseNatCore (s : List Char) : Option (ℕ × List Char) :=
  let ds := s.takeWhile isDigitC
  if ds.isEmpty then none
  else some (ds.foldl (fun acc c => acc * 10 + charDigit c) 0, s.dropWhile isDigitC)

/-- Read an optionally negated integer literal. -/
def parseIntNum (s : List Char) : Option (ℤ × List Char) :=
  match s with
  | '-' :: t =>
    match parseNatCore t with
    | some (m, r) => some (-(m : ℤ), r)
    | none => none
  | _ =>
    match parseNatCore s with
    | some (m, r) => some ((m : ℤ), r)
    | none => none

/-- Reader mode: factor, term, sum, or one of the two loops with the
value accumulated so far. -/
inductive PMode where
  | fac
  | term
  | sum
  | termLoop (acc : CExpr)
  | sumLoop (acc : CExpr)
deriving Repr

/-- The recursive-descent reader of the evaluator's grammar.  The fuel
argument bounds the depth of nested reader calls. -/
def parseGo : ℕ → PMode → List Char → Option (CExpr × List Char)
  | 0, _, _ => none
  | fuel + 1, .fac, s =>
    match s with
    | '(' :: t =>
      match parseGo fuel .sum t with
      | some (a, ')' :: r) => some (a, r)
      | _ => none
    | 'p' :: 'o' :: 'w' :: '(' :: t =>
      match parseGo fuel .sum t with
      | some (a, ',' :: ' ' :: r) =>
        match parseNatCore r with
        | some (k, ')' :: r2) => some (.cpow a k, r2)
        | _ => none
      | _ => none
    | 'p' :: 'i' :: t => some (.cpi, t)
    | 'x' :: '[' :: '0' :: ']' :: t => some (.cx0, t)
    | 'x' :: '[' :: '1' :: ']' :: t => some (.cx1, t)
    | _ =>
      match parseIntNum s with
      | some (v, r) => some (.num v, r)
      | none => none
  | fuel + 1, .term, s =>
    match parseGo fuel .fac s with
    | some (a, r) => parseGo fuel (.termLoop a) r
    | none => none
  | fuel + 1, .termLoop acc, s =>
    match s with
    | '*' :: t =>
      match parseGo fuel .fac t with
      | some (a, r) => parseGo fuel (.termLoop (.cmul acc a)) r
      | none => none
    | _ => some (acc, s)
  | fuel + 1, .sum, s =>
    match parseGo fuel .term s with
    | some (a, r) => parseGo fuel (.sumLoop a) r
    | none => none
  | fuel + 1, .sumLoop acc, s =>
    match s with
    | ' ' :: '+' :: ' ' :: t =>
      match parseGo fuel .term t with
      | some (a, r) => parseGo fuel (.sumLoop (.cadd acc a)) r
      | none => none
    | ' ' :: '-' :: ' ' :: t =>
      match parseGo fuel .term t with
      | some (a, r) => parseGo fuel (.sumLoop (.csub acc a)) r
      | none => none
    | _ => some (acc, s)

/-- Reading a full emitted string: the fuel `12 * length + 12` dominates
the reader's call depth on printer output. -/
def parseEmitted (s : List Char) : Option (CExpr × List Char) :=
  parseGo (12 * s.length + 12) .sum s

/-- Numeric evaluation of an emitted string by the external evaluator:
the whole string must be consumed. -/
def evalEmitted (s : List Char) (piv a b : ℚ) : Option ℚ :=
  match parseEmitted s with
  | some (ast, []) => some (evalC piv a b ast)
  | _ => none

/-- The coordinate assignment used by the external evaluator: `x[0]`
holds the first coordinate, `x[1]` the second. -/
def stdAssign (a b : ℚ) : String → ℚ :=
  fun s => if s = "x[0]" then a else if s = "x[1]" then b else 0

/-! ### Number rendering and reading round-trip -/

/-- A digit character produced from a value below ten is a digit. -/
theorem digitChar_isDigit {d : ℕ} (h : d < 10) : isDigitC (digitChar d) = true := by
  interval_cases d <;> rfl

/-- Digit values round-trip through the digit character. -/
theorem charDigit_digitChar {d : ℕ} (h : d < 10) : charDigit (digitChar d) = d := by
  interval_cases d <;> rfl

/-- A digit character is one of the ten digit characters. -/
theorem isDigitC_cases {c : Char} (h : isDigitC c = true) :
    c = '0' ∨ c = '1' ∨ c = '2' ∨ c = '3' ∨ c = '4' ∨
      c = '5' ∨ c = '6' ∨ c = '7' ∨ c = '8' ∨ c = '9' := by
  simp only [isDigitC, Bool.or_eq_true, beq_iff_eq] at h
  tauto

/-- Every character of `natDigitsAux` output is a digit. -/
theorem natDigitsAux_digits :
    ∀ (fuel k : ℕ), ∀ c ∈ natDigitsAux fuel k, isDigitC c = true := by
  intro fuel
  induction fuel with
  | zero => intro k c hc; simp [natDigitsAux] at hc
  | succ fuel ih =>
    intro k c hc
    match k with
    | 0 => simp [natDigitsAux] at hc
    | m + 1 =>
      rw [natDigitsAux] at hc
      rcases List.mem_cons.mp hc with rfl | hc
      · exact digitChar_isDigit (Nat.mod_lt _ (by omega))
      · exact ih _ c hc

/-- Every character of `renderNat` output is a digit. -/
theorem renderNat_digits (k : ℕ) : ∀ c ∈ renderNat k, isDigitC c = true := by
  intro c hc
  unfold renderNat at hc
  by_cases hk : k = 0
  · rw [if_pos hk] at hc
    rcases List.mem_singleton.mp hc with rfl
    rfl
  · rw [if_neg hk] at hc
    exact natDigitsAux_digits k k c (List.mem_reverse.mp hc)

/-- Rendered numbers are never empty. -/
theorem renderNat_ne_nil (k : ℕ) : renderNat k ≠ [] := by
  unfold renderNat
  by_cases hk : k = 0
  · rw [if_pos hk]; simp
  · rw [if_neg hk]
    match k, hk with
    | m + 1, _ =>
      rw [natDigitsAux]
      simp

/-- Decimal digits decode back to the rendered number. -/
theorem natDigitsAux_val :
    ∀ (fuel k : ℕ), k ≤ fuel → ∀ acc : ℕ,
      ((natDigitsAux fuel k).reverse).foldl (fun a c => a * 10 + charDigit c) acc =
        acc * 10 ^ (natDigitsAux fuel k).length + k := by
  intro fuel
  induction fuel with
  | zero =>
    intro k hk acc
    have : k = 0 := Nat.le_zero.mp hk
    subst this
    simp [natDigitsAux]
  | succ fuel ih =>
    intro k hk acc
    match k with
    | 0 => simp [natDigitsAux]
    | m + 1 =>
      rw [natDigitsAux]
      have hdiv : (m + 1) / 10 ≤ fuel := by
        have h1 : (m + 1) / 10 < m + 1 := Nat.div_lt_self (by omega) (by omega)
        omega
      have hmod : (m + 1) % 10 < 10 := Nat.mod_lt _ (by omega)
      simp only [List.reverse_cons, List.foldl_append, List.foldl_cons, List.foldl_nil,
        List.length_cons]
      rw [ih _ hdiv acc, charDigit_digitChar hmod, pow_succ, add_mul, mul_assoc,
        add_assoc]
      congr 1
      omega

/-- Reading back the decimal rendering of a natural number. -/
theorem renderNat_val (k : ℕ) :
    (renderNat k).foldl (fun a c => a * 10 + charDigit c) 0 = k := by
  unfold renderNat
  by_cases hk : k = 0
  · rw [if_pos hk, hk]; rfl
  · rw [if_neg hk]
    have := natDigitsAux_val k k (le_refl k) 0
    simpa using this

/-- The tail has no leading character satisfying `p`. -/
def headNot (p : Char → Bool) : List Char → Prop
  | [] => True
  | c :: _ => p c = false

/-- Functions takeWhile and dropWhile split an append at a predicate boundary. -/
theorem takeWhile_dropWhile_app {p : Char → Bool} :
    ∀ {a b : List Char}, (∀ c ∈ a, p c = true) → headNot p b →
      (a ++ b).takeWhile p = a ∧ (a ++ b).dropWhile p = b := by
  intro a
  induction a with
  | nil =>
    intro b _ hb
    match b with
    | [] => exact ⟨rfl, rfl⟩
    | c :: t =>
      simp only [List.nil_append, List.takeWhile, List.dropWhile]
      rw [headNot] at hb
      rw [hb]
      exact ⟨rfl, rfl⟩
  | cons d a' ih =>
    intro b ha hb
    have hd : p d = true := ha d (List.mem_cons_self d a')
    have := ih (fun c hc => ha c (List.mem_cons_of_mem d hc)) hb
    simp only [List.cons_append, List.takeWhile_cons, List.dropWhile_cons, hd]
    simp [this.1, this.2]

/-- Reading back a rendered natural number followed by a non-digit
tail. -/
theorem parseNatCore_renderNat (k : ℕ) (tail : List Char)
    (ht : headNot isDigitC tail) :
    parseNatCore (renderNat k ++ tail) = some (k, tail) := by
  have hsplit := takeWhile_dropWhile_app (renderNat_digits k) ht
  have hval := renderNat_val k
  obtain ⟨c, t, hrn⟩ : ∃ c t, renderNat k = c :: t := by
    match hrn2 : renderNat k, renderNat_ne_nil k with
    | c :: t, _ => exact ⟨c, t, rfl⟩
  unfold parseNatCore
  rw [hsplit.1, hsplit.2]
  rw [hrn] at hval
  rw [hrn]
  simp [hval]

/-- Reading back a rendered integer followed by a non-digit tail. -/
theorem parseIntNum_renderInt (v : ℤ) (tail : List Char)
    (ht : headNot isDigitC tail) :
    parseIntNum (renderInt v ++ tail) = some (v, tail) := by
  by_cases hv : v < 0
  · have hri : renderInt v = '-' :: renderNat v.natAbs := by
      unfold renderInt
      rw [if_pos hv]
      rfl
    rw [hri, List.cons_append]
    have hred : parseIntNum ('-' :: (renderNat v.natAbs ++ tail)) =
        (match parseNatCore (renderNat v.natAbs ++ tail) with
         | some (m, r) => some (-(m : ℤ), r)
         | none => none) := rfl
    rw [hred, parseNatCore_renderNat v.natAbs tail ht]
    show some (-(v.natAbs : ℤ), tail) = some (v, tail)
    have h2 : -(v.natAbs : ℤ) = v := by omega
    rw [h2]
  · have hri : renderInt v = renderNat v.natAbs := by
      unfold renderInt
      rw [if_neg hv]
      rfl
    obtain ⟨c₀, t₀, hrn⟩ : ∃ c t, renderNat v.natAbs = c :: t := by
      match hrn2 : renderNat v.natAbs, renderNat_ne_nil v.natAbs with
      | c :: t, _ => exact ⟨c, t, rfl⟩
    have hd : isDigitC c₀ = true :=
      renderNat_digits v.natAbs c₀ (by rw [hrn]; exact List.mem_cons_self _ _)
    have hne : c₀ ≠ '-' := by
      intro h
      rw [h] at hd
      exact absurd hd (by decide)
    rw [hri, hrn, List.cons_append]
    unfold parseIntNum
    split
    · rename_i t heq
      injection heq with h1 h2
      exact absurd h1 hne
    · rw [← List.cons_append, ← hrn, parseNatCore_renderNat v.natAbs tail ht]
      show some ((v.natAbs : ℤ), tail) = some (v, tail)
      have h2 : (v.natAbs : ℤ) = v := by omega
      rw [h2]

/-! ### Printer structure: signed terms, sum spines and factor spines -/

/-- Negate the leading numeric coefficient of a term. -/
def negTerm : Expr → Expr
  | .const c => .const (-c)
  | .mul a b => .mul (negTerm a) b
  | e => e

/-- The term and factor printing contexts coincide. -/
theorem ccodeT_eq_ccodeF (pn : List Char) (e : Expr) :
    ccodeGo pn .term e = ccodeGo pn .fac e := by
  cases e <;> rfl

/-- The sign-stripped rendering of a term is the plain rendering of the
term with its leading coefficient negated. -/
theorem ccodeA_eq_negTerm (pn : List Char) :
    ∀ e, ccodeGo pn .termAbs e = ccodeGo pn .term (negTerm e) := by
  intro e
  induction e with
  | const c => rfl
  | pi => rfl
  | var s => rfl
  | add a b iha ihb => rfl
  | mul a b iha ihb =>
    show ccodeGo pn .termAbs a ++ '*' :: ccodeGo pn .fac b =
      ccodeGo pn .term (negTerm a) ++ '*' :: ccodeGo pn .fac b
    rw [iha]
  | pow a k iha => rfl

/-- Negating the leading coefficient negates the value, for terms whose
leading coefficient is numeric. -/
theorem evalE_negTerm (σ : String → ℚ) (piv : ℚ) :
    ∀ e, termIsNeg e = true → evalE σ piv (negTerm e) = -(evalE σ piv e) := by
  intro e
  induction e with
  | const c => intro _; show ((-c : ℤ) : ℚ) = -(c : ℚ); push_cast; ring
  | pi => intro h; simp [termIsNeg] at h
  | var s => intro h; simp [termIsNeg] at h
  | add a b iha ihb => intro h; simp [termIsNeg] at h
  | mul a b iha ihb =>
    intro h
    have ha : termIsNeg a = true := h
    show evalE σ piv (negTerm a) * evalE σ piv b = -(evalE σ piv a * evalE σ piv b)
    rw [iha ha]
    ring
  | pow a k iha => intro h; simp [termIsNeg] at h

/-- Symbols are untouched by `negTerm`. -/
theorem varsAll_negTerm (p : String → Bool) :
    ∀ e, varsAll p (negTerm e) = varsAll p e := by
  intro e
  induction e with
  | const c => rfl
  | pi => rfl
  | var s => rfl
  | add a b iha ihb => rfl
  | mul a b iha ihb => simp [negTerm, varsAll, iha]
  | pow a k iha => rfl

/-- The terms of a sum, leftmost first (the right operand of each `add`
is one term; a nested right-hand `add` is printed parenthesised and so
counts as a single term). -/
def sumTerms : Expr → List Expr
  | .add a b => sumTerms a ++ [b]
  | e => [e]

/-- The factors of a product, leftmost first. -/
def mulFactors : Expr → List Expr
  | .mul a b => mulFactors a ++ mulFactors b
  | e => [e]

/-- Separator-prefixed rendering of one further term of a sum. -/
def sepRender (pn : List Char) (t : Expr) : List Char :=
  if termIsNeg t then ' ' :: '-' :: ' ' :: ccodeGo pn .termAbs t
  else ' ' :: '+' :: ' ' :: ccodeGo pn .term t

/-- Rendering of the later terms of a sum. -/
def sumTails (pn : List Char) : List Expr → List Char
  | [] => []
  | t :: ts => sepRender pn t ++ sumTails pn ts

/-- Rendering of the later factors of a product. -/
def facsTail (pn : List Char) : List Expr → List Char
  | [] => []
  | g :: gs => '*' :: ccodeGo pn .fac g ++ facsTail pn gs

theorem sumTails_append (pn : List Char) (l₁ l₂ : List Expr) :
    sumTails pn (l₁ ++ l₂) = sumTails pn l₁ ++ sumTails pn l₂ := by
  induction l₁ with
  | nil => rfl
  | cons t ts ih => simp [sumTails, ih]

theorem facsTail_append (pn : List Char) (l₁ l₂ : List Expr) :
    facsTail pn (l₁ ++ l₂) = facsTail pn l₁ ++ facsTail pn l₂ := by
  induction l₁ with
  | nil => rfl
  | cons g gs ih => simp [facsTail, ih]

theorem sumTerms_ne_nil : ∀ e, sumTerms e ≠ [] := by
  intro e
  cases e <;> simp [sumTerms]

theorem mulFactors_ne_nil : ∀ e, mulFactors e ≠ [] := by
  intro e
  induction e <;> simp_all [mulFactors]

/-- The sum rendering is the first term followed by the separator
chunks. -/
theorem ccodeS_spine (pn : List Char) :
    ∀ e, ∃ t₀ ts, sumTerms e = t₀ :: ts ∧
      ccodeGo pn .sum e = ccodeGo pn .term t₀ ++ sumTails pn ts := by
  intro e
  induction e with
  | add a b iha ihb =>
    obtain ⟨t₀, ts, hspine, hrender⟩ := iha
    refine ⟨t₀, ts ++ [b], ?_, ?_⟩
    · show sumTerms a ++ [b] = t₀ :: (ts ++ [b])
      rw [hspine]
      rfl
    · show ccodeGo pn .sum a ++ _ = _
      rw [hrender, sumTails_append, ← List.append_assoc]
      congr 1
      show _ = sumTails pn [b]
      simp [sumTails, sepRender]
  | const c => exact ⟨_, [], rfl, by simp only [sumTails, List.append_nil]; rfl⟩
  | pi => exact ⟨_, [], rfl, by simp only [sumTails, List.append_nil]; rfl⟩
  | var s => exact ⟨_, [], rfl, by simp only [sumTails, List.append_nil]; rfl⟩
  | mul a b iha ihb => exact ⟨_, [], rfl, by simp only [sumTails, List.append_nil]; rfl⟩
  | pow a k iha => exact ⟨_, [], rfl, by simp only [sumTails, List.append_nil]; rfl⟩

/-- The factor rendering of any expression in term or factor context is
the first factor followed by starred further factors. -/
theorem ccodeF_spine (pn : List Char) :
    ∀ e, ∃ g₀ gs, mulFactors e = g₀ :: gs ∧
      ccodeGo pn .fac e = ccodeGo pn .fac g₀ ++ facsTail pn gs := by
  intro e
  induction e with
  | mul a b iha ihb =>
    obtain ⟨g₀, gs, hspine, hrender⟩ := iha
    obtain ⟨h₀, hs, hspine', hrender'⟩ := ihb
    refine ⟨g₀, gs ++ mulFactors b, ?_, ?_⟩
    · show mulFactors a ++ mulFactors b = _
      rw [hspine]
      rfl
    · show ccodeGo pn .term a ++ '*' :: ccodeGo pn .fac b = _
      rw [ccodeT_eq_ccodeF, hrender, facsTail_append, List.append_assoc]
      congr 1
      rw [hspine', hrender']
      simp [facsTail]
  | const c => exact ⟨_, [], rfl, by simp [facsTail]⟩
  | pi => exact ⟨_, [], rfl, by simp [facsTail]⟩
  | var s => exact ⟨_, [], rfl, by simp [facsTail]⟩
  | add a b iha ihb => exact ⟨_, [], rfl, by simp [facsTail]⟩
  | pow a k iha => exact ⟨_, [], rfl, by simp [facsTail]⟩

/-- Is the expression a product node? -/
def isMulE : Expr → Bool
  | .mul _ _ => true
  | _ => false

theorem mulFactors_not_mul : ∀ e, ∀ g ∈ mulFactors e, isMulE g = false := by
  intro e
  induction e with
  | mul a b iha ihb =>
    intro g hg
    rcases List.mem_append.mp hg with h | h
    · exact iha g h
    · exact ihb g h
  | const c => intro g hg; rcases List.mem_singleton.mp hg with rfl; rfl
  | pi => intro g hg; rcases List.mem_singleton.mp hg with rfl; rfl
  | var s => intro g hg; rcases List.mem_singleton.mp hg with rfl; rfl
  | add a b _ _ => intro g hg; rcases List.mem_singleton.mp hg with rfl; rfl
  | pow a k _ => intro g hg; rcases List.mem_singleton.mp hg with rfl; rfl

/-- The rewrite does not depend on the fuel, once the fuel covers the
input length. -/
theorem replaceAllAux_fuel {pat rep : List Char} (hpat : pat ≠ []) :
    ∀ (fuel₁ fuel₂ : ℕ) (s : List Char), s.length ≤ fuel₁ → s.length ≤ fuel₂ →
      replaceAllAux pat rep fuel₁ s = replaceAllAux pat rep fuel₂ s := by
  intro fuel₁
  induction fuel₁ with
  | zero =>
    intro fuel₂ s hs₁ _
    rw [List.length_eq_zero.mp (Nat.le_zero.mp hs₁)]
    cases fuel₂ <;> rfl
  | succ fuel₁ ih =>
    intro fuel₂ s hs₁ hs₂
    match s with
    | [] => cases fuel₂ <;> rfl
    | c :: cs =>
      match fuel₂, hs₂ with
      | f₂ + 1, hs₂ =>
        have hplen : 1 ≤ pat.length := by
          match pat, hpat with
          | p :: pt, _ => exact Nat.succ_le_succ (Nat.zero_le _)
        simp only [List.length_cons] at hs₁ hs₂
        by_cases hpre : pat.isPrefixOf (c :: cs)
        · rw [replaceAllAux, replaceAllAux, hpre]
          simp only [if_true]
          congr 1
          have hlen : (List.drop pat.length (c :: cs)).length ≤ fuel₁ ∧
              (List.drop pat.length (c :: cs)).length ≤ f₂ := by
            simp only [List.length_drop, List.length_cons]
            omega
          exact ih f₂ _ hlen.1 hlen.2
        · rw [replaceAllAux, replaceAllAux]
          simp only [hpre]
          simp only [Bool.false_eq_true, if_false]
          congr 1
          exact ih f₂ cs (by omega) (by omega)

/-! ### The rewrite commutes with printing

On printer output whose symbol names avoid the character `M`, applying
the lookup-table rewrite to the raw rendering (pi printed as `M_PI`)
yields exactly the rendering with pi printed as `pi`. -/

/-- The rewrite maps the chunk `A` to `A'` in any left context. -/
def RAProp (A A' : List Char) : Prop :=
  ∀ r, replaceAll mpiChars piChars (A ++ r) = A' ++ replaceAll mpiChars piChars r

theorem RAProp_comp {A A' B B' : List Char} (h₁ : RAProp A A') (h₂ : RAProp B B') :
    RAProp (A ++ B) (A' ++ B') := by
  intro r
  rw [List.append_assoc, h₁, h₂, ← List.append_assoc]

/-- A chunk with no `M` character passes through the rewrite. -/
theorem RAProp_free {A : List Char} (h : ∀ c ∈ A, c ≠ 'M') : RAProp A A := by
  intro r
  induction A with
  | nil => rfl
  | cons d a' ih =>
    have hd : d ≠ 'M' := h d (List.mem_cons_self d a')
    show replaceAll mpiChars piChars (d :: (a' ++ r)) = _
    have hpre : mpiChars.isPrefixOf (d :: (a' ++ r)) = false := by
      simp only [mpiChars, List.isPrefixOf, Bool.and_eq_false_iff]
      left
      simpa [beq_iff_eq] using fun h => hd h.symm
    unfold replaceAll
    rw [if_neg (by decide)]
    show replaceAllAux mpiChars piChars ((a' ++ r).length + 1) (d :: (a' ++ r)) = _
    rw [replaceAllAux, hpre]
    simp only [Bool.false_eq_true, if_false]
    have := ih (fun c hc => h c (List.mem_cons_of_mem d hc))
    unfold replaceAll at this
    rw [if_neg (by decide)] at this
    rw [this]
    rfl

/-- The pattern chunk rewrites to the replacement. -/
theorem RAProp_pat : RAProp mpiChars piChars := by
  intro r
  unfold replaceAll
  rw [if_neg (by decide), if_neg (by decide)]
  show replaceAllAux mpiChars piChars (r.length + 4) ('M' :: '_' :: 'P' :: 'I' :: r) = _
  rw [replaceAllAux]
  have hpre : mpiChars.isPrefixOf ('M' :: '_' :: 'P' :: 'I' :: r) = true := by
    simp [mpiChars, List.isPrefixOf]
  rw [hpre]
  simp only [if_true]
  have hdrop : List.drop mpiChars.length ('M' :: '_' :: 'P' :: 'I' :: r) = r := rfl
  rw [hdrop]
  congr 1
  exact replaceAllAux_fuel (by decide) _ _ r (by omega) (le_refl _)

/-- Cons a non-`M` character onto a rewrite-stable chunk. -/
theorem RAProp_cons {c : Char} {A A' : List Char} (hc : c ≠ 'M')
    (h : RAProp A A') : RAProp (c :: A) (c :: A') := by
  have := RAProp_comp (RAProp_free (A := [c]) (by intro d hd; rcases List.mem_singleton.mp hd with rfl; exact hc)) h
  simpa using this

/-- Names containing no `M` character. -/
def noM (s : String) : Bool := s.data.all (fun c => !(c == 'M'))

theorem noM_chars {s : String} (h : noM s = true) : ∀ c ∈ s.data, c ≠ 'M' := by
  intro c hc
  have := List.all_eq_true.mp h c hc
  simpa [beq_iff_eq] using this

/-- Rendered naturals contain no `M`. -/
theorem renderNat_noM (k : ℕ) : ∀ c ∈ renderNat k, c ≠ 'M' := by
  intro c hc heq
  have := renderNat_digits k c hc
  rw [heq] at this
  exact absurd this (by decide)

/-- Rendered integers contain no `M`. -/
theorem renderInt_noM (v : ℤ) : ∀ c ∈ renderInt v, c ≠ 'M' := by
  intro c hc
  unfold renderInt at hc
  rcases List.mem_append.mp hc with h | h
  · by_cases hv : v < 0
    · rw [if_pos hv] at h
      rcases List.mem_singleton.mp h with rfl
      decide
    · rw [if_neg hv] at h
      simp at h
  · exact renderNat_noM _ c h

/-- The rewrite turns the raw rendering into the pi-named rendering, in
every context, for expressions whose symbols avoid `M`. -/
theorem RAProp_ccodeGo :
    ∀ e, varsAll noM e = true →
      ∀ ctx, RAProp (ccodeGo mpiChars ctx e) (ccodeGo piChars ctx e) := by
  intro e
  induction e with
  | const c =>
    intro _ ctx
    cases ctx
    · exact RAProp_free (renderInt_noM c)
    · exact RAProp_free (renderInt_noM c)
    · exact RAProp_free (renderInt_noM (-c))
    · exact RAProp_free (renderInt_noM c)
  | pi =>
    intro _ ctx
    cases ctx <;> exact RAProp_pat
  | var s =>
    intro hv ctx
    have hs : ∀ c ∈ s.data, c ≠ 'M' := noM_chars hv
    cases ctx <;> exact RAProp_free hs
  | add a b iha ihb =>
    intro hv ctx
    simp only [varsAll, Bool.and_eq_true] at hv
    have hcore : RAProp
        (ccodeGo mpiChars .sum a ++
          (if termIsNeg b then ' ' :: '-' :: ' ' :: ccodeGo mpiChars .termAbs b
           else ' ' :: '+' :: ' ' :: ccodeGo mpiChars .term b))
        (ccodeGo piChars .sum a ++
          (if termIsNeg b then ' ' :: '-' :: ' ' :: ccodeGo piChars .termAbs b
           else ' ' :: '+' :: ' ' :: ccodeGo piChars .term b)) := by
      refine RAProp_comp (iha hv.1 .sum) ?_
      by_cases hn : termIsNeg b
      · rw [if_pos hn, if_pos hn]
        exact RAProp_cons (by decide) (RAProp_cons (by decide) (RAProp_cons (by decide)
          (ihb hv.2 .termAbs)))
      · rw [if_neg hn, if_neg hn]
        exact RAProp_cons (by decide) (RAProp_cons (by decide) (RAProp_cons (by decide)
          (ihb hv.2 .term)))
    cases ctx
    · exact hcore
    · exact RAProp_cons (by decide) (RAProp_comp hcore (RAProp_free (by intro c hc; rcases List.mem_singleton.mp hc with rfl; decide)))
    · exact RAProp_cons (by decide) (RAProp_comp hcore (RAProp_free (by intro c hc; rcases List.mem_singleton.mp hc with rfl; decide)))
    · exact RAProp_cons (by decide) (RAProp_comp hcore (RAProp_free (by intro c hc; rcases List.mem_singleton.mp hc with rfl; decide)))
  | mul a b iha ihb =>
    intro hv ctx
    simp only [varsAll, Bool.and_eq_true] at hv
    have hb := RAProp_cons (c := '*') (by decide) (ihb hv.2 .fac)
    cases ctx
    · exact RAProp_comp (iha hv.1 .term) hb
    · exact RAProp_comp (iha hv.1 .term) hb
    · exact RAProp_comp (iha hv.1 .termAbs) hb
    · exact RAProp_comp (iha hv.1 .term) hb
  | pow a k iha =>
    intro hv ctx
    have core : RAProp
        (ccodeGo mpiChars .sum a ++ ',' :: ' ' :: renderNat k ++ [')'])
        (ccodeGo piChars .sum a ++ ',' :: ' ' :: renderNat k ++ [')']) := by
      refine RAProp_comp (RAProp_comp (iha hv .sum) ?_) (RAProp_free (by intro c hc; rcases List.mem_singleton.mp hc with rfl; decide))
      exact RAProp_cons (by decide) (RAProp_cons (by decide) (RAProp_free (renderNat_noM k)))
    cases ctx <;>
      exact RAProp_cons (by decide) (RAProp_cons (by decide) (RAProp_cons (by decide)
        (RAProp_cons (by decide) core)))

/-- For expressions over `M`-free symbol names, the full emission equals
the rendering with pi printed as `pi`. -/
theorem emitChars_eq_ccodePi (e : Expr) (hv : varsAll noM e = true) :
    emitChars e = ccodeGo piChars .sum e := by
  have h := RAProp_ccodeGo e hv .sum []
  have hnil : replaceAll mpiChars piChars [] = [] := rfl
  rw [List.append_nil, hnil, List.append_nil] at h
  exact h

/-! ### Fuel requirements and stop conditions for the reader -/

/-- Structural size of an expression. -/
def sizeE : Expr → ℕ
  | .add a b => sizeE a + sizeE b + 1
  | .mul a b => sizeE a + sizeE b + 1
  | .pow a _ => sizeE a + 1
  | _ => 1

/-- Fuel required by the reader on the printed form of an expression,
per printing context (an upper bound on the reader's call depth). -/
def Rc : PCtx → Expr → ℕ
  | .sum, .add a b => Rc .sum a + Rc .term b + 2
  | .sum, .mul a b => Rc .term a + Rc .term b + 2
  | .sum, .pow a _ => Rc .sum a + 6
  | .sum, _ => 5
  | .fac, .add a b => Rc .sum a + Rc .term b + 4
  | .fac, .mul a b => Rc .term a + Rc .term b
  | .fac, .pow a _ => Rc .sum a + 2
  | .fac, _ => 1
  | _, .add a b => Rc .sum a + Rc .term b + 6
  | _, .mul a b => Rc .term a + Rc .term b
  | _, .pow a _ => Rc .sum a + 4
  | _, _ => 3

/-- Fuel required by the factor loop on a list of further factors. -/
def RLF : List Expr → ℕ
  | [] => 0
  | g :: gs => Rc .fac g + 2 + RLF gs

/-- Fuel required by the sum loop on a list of further terms. -/
def RLS : List Expr → ℕ
  | [] => 0
  | t :: ts => Rc .term t + 2 + RLS ts

theorem RLF_append (l₁ l₂ : List Expr) : RLF (l₁ ++ l₂) = RLF l₁ + RLF l₂ := by
  induction l₁ with
  | nil => simp [RLF]
  | cons g gs ih => simp [RLF, ih]; omega

theorem RLS_append (l₁ l₂ : List Expr) : RLS (l₁ ++ l₂) = RLS l₁ + RLS l₂ := by
  induction l₁ with
  | nil => simp [RLS]
  | cons t ts ih => simp [RLS, ih]; omega

/-- Negating a term's head coefficient preserves sizes and fuel requirements. -/
theorem sizeE_negTerm : ∀ e, sizeE (negTerm e) = sizeE e := by
  intro e
  induction e <;> simp [negTerm, sizeE, *]

theorem Rc_negTerm : ∀ (e : Expr) (ctx : PCtx), Rc ctx (negTerm e) = Rc ctx e := by
  intro e
  induction e with
  | const c => intro ctx; cases ctx <;> rfl
  | pi => intro ctx; cases ctx <;> rfl
  | var s => intro ctx; cases ctx <;> rfl
  | add a b iha ihb => intro ctx; cases ctx <;> rfl
  | mul a b iha ihb =>
    intro ctx
    have h := iha .term
    cases ctx <;> simp [negTerm, Rc, h]
  | pow a k iha => intro ctx; cases ctx <;> rfl

/-- The term requirement splits along the factor spine. -/
theorem Rc_term_spine :
    ∀ e, ∃ g₀ gs, mulFactors e = g₀ :: gs ∧
      Rc .term e = Rc .fac g₀ + RLF gs + 2 := by
  intro e
  induction e with
  | mul a b iha ihb =>
    obtain ⟨g₀, gs, hsp, hr⟩ := iha
    obtain ⟨h₀, hs, hsp', hr'⟩ := ihb
    refine ⟨g₀, gs ++ mulFactors b, ?_, ?_⟩
    · show mulFactors a ++ mulFactors b = _
      rw [hsp]
      rfl
    · show Rc .term a + Rc .term b = _
      rw [RLF_append, hr, hr', hsp']
      simp [RLF]
      omega
  | const c => exact ⟨_, [], rfl, rfl⟩
  | pi => exact ⟨_, [], rfl, rfl⟩
  | var s => exact ⟨_, [], rfl, rfl⟩
  | add a b _ _ => exact ⟨_, [], rfl, by simp [Rc, RLF]⟩
  | pow a k _ => exact ⟨_, [], rfl, by simp [Rc, RLF]⟩

/-- The sum requirement splits along the term spine. -/
theorem Rc_sum_spine :
    ∀ e, ∃ t₀ ts, sumTerms e = t₀ :: ts ∧
      Rc .sum e = Rc .term t₀ + RLS ts + 2 := by
  intro e
  induction e with
  | add a b iha ihb =>
    obtain ⟨t₀, ts, hsp, hr⟩ := iha
    refine ⟨t₀, ts ++ [b], ?_, ?_⟩
    · show sumTerms a ++ [b] = _
      rw [hsp]
      rfl
    · show Rc .sum a + Rc .term b + 2 = _
      rw [RLS_append, hr]
      simp [RLS]
      omega
  | const c => exact ⟨_, [], rfl, rfl⟩
  | pi => exact ⟨_, [], rfl, rfl⟩
  | var s => exact ⟨_, [], rfl, rfl⟩
  | mul a b _ _ => exact ⟨_, [], rfl, by simp [Rc, RLS]⟩
  | pow a k _ => exact ⟨_, [], rfl, by simp [Rc, RLS]⟩

/-- Spine members are no larger than the expression; in a sum or
product node they are strictly smaller. -/
theorem sumTerms_size : ∀ e, ∀ t ∈ sumTerms e, sizeE t ≤ sizeE e := by
  intro e
  induction e with
  | add a b iha _ =>
    intro t ht
    rcases List.mem_append.mp ht with h | h
    · exact (iha t h).trans (by simp [sizeE]; omega)
    · rcases List.mem_singleton.mp h with rfl
      simp [sizeE]
      omega
  | const c => intro t ht; rcases List.mem_singleton.mp ht with rfl; exact le_refl _
  | pi => intro t ht; rcases List.mem_singleton.mp ht with rfl; exact le_refl _
  | var s => intro t ht; rcases List.mem_singleton.mp ht with rfl; exact le_refl _
  | mul a b _ _ => intro t ht; rcases List.mem_singleton.mp ht with rfl; exact le_refl _
  | pow a k _ => intro t ht; rcases List.mem_singleton.mp ht with rfl; exact le_refl _

theorem mulFactors_size : ∀ e, ∀ g ∈ mulFactors e, sizeE g ≤ sizeE e := by
  intro e
  induction e with
  | mul a b iha ihb =>
    intro g hg
    rcases List.mem_append.mp hg with h | h
    · exact (iha g h).trans (by simp [sizeE]; omega)
    · exact (ihb g h).trans (by simp [sizeE]; omega)
  | const c => intro g hg; rcases List.mem_singleton.mp hg with rfl; exact le_refl _
  | pi => intro g hg; rcases List.mem_singleton.mp hg with rfl; exact le_refl _
  | var s => intro g hg; rcases List.mem_singleton.mp hg with rfl; exact le_refl _
  | add a b _ _ => intro g hg; rcases List.mem_singleton.mp hg with rfl; exact le_refl _
  | pow a k _ => intro g hg; rcases List.mem_singleton.mp hg with rfl; exact le_refl _

/-- Symbols of spine members. -/
theorem sumTerms_coordOnly : ∀ e, coordOnly e = true → ∀ t ∈ sumTerms e, coordOnly t = true := by
  intro e
  induction e with
  | add a b iha _ =>
    intro hc t ht
    simp only [coordOnly, varsAll, Bool.and_eq_true] at hc
    rcases List.mem_append.mp ht with h | h
    · exact iha hc.1 t h
    · rcases List.mem_singleton.mp h with rfl
      exact hc.2
  | const c => intro hc t ht; rcases List.mem_singleton.mp ht with rfl; exact hc
  | pi => intro hc t ht; rcases List.mem_singleton.mp ht with rfl; exact hc
  | var s => intro hc t ht; rcases List.mem_singleton.mp ht with rfl; exact hc
  | mul a b _ _ => intro hc t ht; rcases List.mem_singleton.mp ht with rfl; exact hc
  | pow a k _ => intro hc t ht; rcases List.mem_singleton.mp ht with rfl; exact hc

theorem mulFactors_coordOnly : ∀ e, coordOnly e = true → ∀ g ∈ mulFactors e, coordOnly g = true := by
  intro e
  induction e with
  | mul a b iha ihb =>
    intro hc g hg
    simp only [coordOnly, varsAll, Bool.and_eq_true] at hc
    rcases List.mem_append.mp hg with h | h
    · exact iha hc.1 g h
    · exact ihb hc.2 g h
  | const c => intro hc g hg; rcases List.mem_singleton.mp hg with rfl; exact hc
  | pi => intro hc g hg; rcases List.mem_singleton.mp hg with rfl; exact hc
  | var s => intro hc g hg; rcases List.mem_singleton.mp hg with rfl; exact hc
  | add a b _ _ => intro hc g hg; rcases List.mem_singleton.mp hg with rfl; exact hc
  | pow a k _ => intro hc g hg; rcases List.mem_singleton.mp hg with rfl; exact hc

/-- The value of an expression is the product of the values of its
factors. -/
theorem evalE_mulFactors (σ : String → ℚ) (piv : ℚ) :
    ∀ e, ((mulFactors e).map (evalE σ piv)).prod = evalE σ piv e := by
  intro e
  induction e with
  | mul a b iha ihb =>
    show ((mulFactors a ++ mulFactors b).map (evalE σ piv)).prod = _
    rw [List.map_append, List.prod_append, iha, ihb]
    rfl
  | const c => simp [mulFactors]
  | pi => simp [mulFactors]
  | var s => simp [mulFactors]
  | add a b _ _ => simp [mulFactors]
  | pow a k _ => simp [mulFactors]

/-- The value of an expression is the sum of the values of its terms. -/
theorem evalE_sumTerms (σ : String → ℚ) (piv : ℚ) :
    ∀ e, ((sumTerms e).map (evalE σ piv)).sum = evalE σ piv e := by
  intro e
  induction e with
  | add a b iha _ =>
    show ((sumTerms a ++ [b]).map (evalE σ piv)).sum = _
    rw [List.map_append, List.sum_append, iha]
    simp [evalE]
  | const c => simp [sumTerms]
  | pi => simp [sumTerms]
  | var s => simp [sumTerms]
  | mul a b _ _ => simp [sumTerms]
  | pow a k _ => simp [sumTerms]

/-- May legally follow a complete sum: nothing, a closing parenthesis,
or the comma of a `pow`. -/
def sumStop : List Char → Prop
  | [] => True
  | c :: _ => c = ')' ∨ c = ','

/-- May legally follow a complete term. -/
def termStop : List Char → Prop
  | [] => True
  | c :: _ => c = ' ' ∨ c = ')' ∨ c = ','

/-- May legally follow a complete factor. -/
def facStop : List Char → Prop
  | [] => True
  | c :: _ => c = '*' ∨ c = ' ' ∨ c = ')' ∨ c = ','

theorem sumStop_termStop {t : List Char} (h : sumStop t) : termStop t := by
  match t with
  | [] => trivial
  | c :: _ => rcases h with h | h <;> simp [termStop, h]

theorem termStop_facStop {t : List Char} (h : termStop t) : facStop t := by
  match t with
  | [] => trivial
  | c :: _ => rcases h with h | h | h <;> simp [facStop, h]

theorem facStop_headNot {t : List Char} (h : facStop t) : headNot isDigitC t := by
  match t with
  | [] => trivial
  | c :: _ => rcases h with h | h | h | h <;> subst h <;> rfl

/-! ### The reader inverts the printer -/

/-- The reader correctly consumes a printed factor. -/
def FacOK (g : Expr) : Prop :=
  ∀ (fuel : ℕ) (tail : List Char), facStop tail → Rc .fac g ≤ fuel →
    ∃ ast, parseGo fuel .fac (ccodeGo piChars .fac g ++ tail) = some (ast, tail) ∧
      ∀ piv a b : ℚ, evalC piv a b ast = evalE (stdAssign a b) piv g

/-- The reader correctly consumes a printed term. -/
def TermOK (e : Expr) : Prop :=
  ∀ (fuel : ℕ) (tail : List Char), termStop tail → Rc .term e ≤ fuel →
    ∃ ast, parseGo fuel .term (ccodeGo piChars .term e ++ tail) = some (ast, tail) ∧
      ∀ piv a b : ℚ, evalC piv a b ast = evalE (stdAssign a b) piv e

/-- The reader correctly consumes a printed sum. -/
def SumOK (e : Expr) : Prop :=
  ∀ (fuel : ℕ) (tail : List Char), sumStop tail → Rc .sum e ≤ fuel →
    ∃ ast, parseGo fuel .sum (ccodeGo piChars .sum e ++ tail) = some (ast, tail) ∧
      ∀ piv a b : ℚ, evalC piv a b ast = evalE (stdAssign a b) piv e

/-- The factor loop consumes the starred further factors of a term. -/
theorem parse_termLoop :
    ∀ (gs : List Expr), (∀ g ∈ gs, FacOK g) →
      ∀ (acc : CExpr) (fuel : ℕ) (tail : List Char), termStop tail →
        RLF gs + 1 ≤ fuel →
        ∃ ast, parseGo fuel (.termLoop acc) (facsTail piChars gs ++ tail) = some (ast, tail) ∧
          ∀ piv a b : ℚ, evalC piv a b ast =
            evalC piv a b acc * ((gs.map (evalE (stdAssign a b) piv)).prod) := by
  intro gs
  induction gs with
  | nil =>
    intro _ acc fuel tail ht hfu
    match fuel, hfu with
    | fu + 1, _ =>
      refine ⟨acc, ?_, ?_⟩
      · show parseGo (fu + 1) (.termLoop acc) ([] ++ tail) = some (acc, tail)
        rw [List.nil_append]
        match tail, ht with
        | [], _ => rfl
        | c :: t, ht => rcases ht with h | h | h <;> subst h <;> rfl
      · intro piv a b
        simp
  | cons g gs ih =>
    intro hfac acc fuel tail ht hfu
    have hcost : RLF (g :: gs) = Rc .fac g + 2 + RLF gs := rfl
    match fuel, hfu with
    | fu + 1, hfu =>
      have hstop : facStop (facsTail piChars gs ++ tail) := by
        match gs with
        | [] => simpa using termStop_facStop ht
        | g' :: gs' =>
          show facStop ((('*' :: ccodeGo piChars .fac g') ++ facsTail piChars gs') ++ tail)
          simp only [List.cons_append]
          exact Or.inl rfl
      obtain ⟨astg, hparse, hval⟩ :=
        hfac g (List.mem_cons_self g gs) fu (facsTail piChars gs ++ tail) hstop (by omega)
      obtain ⟨ast', hp', hv'⟩ :=
        ih (fun g' hg' => hfac g' (List.mem_cons_of_mem g hg'))
          (.cmul acc astg) fu tail ht (by omega)
      refine ⟨ast', ?_, ?_⟩
      · show parseGo (fu + 1) (.termLoop acc)
          ((('*' :: ccodeGo piChars .fac g) ++ facsTail piChars gs) ++ tail) = some (ast', tail)
        simp only [List.cons_append, List.append_assoc]
        show (match parseGo fu .fac
            (ccodeGo piChars .fac g ++ (facsTail piChars gs ++ tail)) with
          | some (a, r) => parseGo fu (.termLoop (.cmul acc a)) r
          | none => none) = some (ast', tail)
        rw [hparse]
        exact hp'
      · intro piv a b
        rw [hv' piv a b]
        simp only [evalC, List.map_cons, List.prod_cons, hval piv a b]
        ring

/-- The sum loop consumes the separator-prefixed further terms of a
sum. -/
theorem parse_sumLoop :
    ∀ (ts : List Expr), (∀ t ∈ ts, TermOK t ∧ TermOK (negTerm t)) →
      ∀ (acc : CExpr) (fuel : ℕ) (tail : List Char), sumStop tail →
        RLS ts + 1 ≤ fuel →
        ∃ ast, parseGo fuel (.sumLoop acc) (sumTails piChars ts ++ tail) = some (ast, tail) ∧
          ∀ piv a b : ℚ, evalC piv a b ast =
            evalC piv a b acc + ((ts.map (evalE (stdAssign a b) piv)).sum) := by
  intro ts
  induction ts with
  | nil =>
    intro _ acc fuel tail ht hfu
    match fuel, hfu with
    | fu + 1, _ =>
      refine ⟨acc, ?_, ?_⟩
      · show parseGo (fu + 1) (.sumLoop acc) ([] ++ tail) = some (acc, tail)
        rw [List.nil_append]
        match tail, ht with
        | [], _ => rfl
        | c :: t, ht => rcases ht with h | h <;> subst h <;> rfl
      · intro piv a b
        simp
  | cons t ts ih =>
    intro hterm acc fuel tail ht hfu
    match fuel, hfu with
    | fu + 1, hfu =>
      have hstop : termStop (sumTails piChars ts ++ tail) := by
        match ts with
        | [] => simpa using sumStop_termStop ht
        | t' :: ts' =>
          show termStop ((sepRender piChars t' ++ sumTails piChars ts') ++ tail)
          unfold sepRender
          by_cases hn : termIsNeg t'
          · rw [if_pos hn]
            simp only [List.cons_append]
            exact Or.inl rfl
          · rw [if_neg hn]
            simp only [List.cons_append]
            exact Or.inl rfl
      have hcost : RLS (t :: ts) = Rc .term t + 2 + RLS ts := rfl
      have ihts := ih (fun t' ht' => hterm t' (List.mem_cons_of_mem t ht'))
      by_cases hn : termIsNeg t
      · obtain ⟨astt, hpt, hvt⟩ := (hterm t (List.mem_cons_self t ts)).2 fu
          (sumTails piChars ts ++ tail) hstop (by rw [Rc_negTerm]; omega)
        obtain ⟨ast', hp', hv'⟩ := ihts (.csub acc astt) fu tail ht (by omega)
        refine ⟨ast', ?_, ?_⟩
        · show parseGo (fu + 1) (.sumLoop acc)
            ((sepRender piChars t ++ sumTails piChars ts) ++ tail) = some (ast', tail)
          unfold sepRender
          rw [if_pos hn, ccodeA_eq_negTerm]
          simp only [List.cons_append, List.append_assoc]
          show (match parseGo fu .term
              (ccodeGo piChars .term (negTerm t) ++ (sumTails piChars ts ++ tail)) with
            | some (a, r) => parseGo fu (.sumLoop (.csub acc a)) r
            | none => none) = some (ast', tail)
          rw [hpt]
          exact hp'
        · intro piv a b
          rw [hv' piv a b]
          simp only [evalC, List.map_cons, List.sum_cons, hvt piv a b,
            evalE_negTerm _ _ t hn]
          ring
      · obtain ⟨astt, hpt, hvt⟩ := (hterm t (List.mem_cons_self t ts)).1 fu
          (sumTails piChars ts ++ tail) hstop (by omega)
        obtain ⟨ast', hp', hv'⟩ := ihts (.cadd acc astt) fu tail ht (by omega)
        refine ⟨ast', ?_, ?_⟩
        · show parseGo (fu + 1) (.sumLoop acc)
            ((sepRender piChars t ++ sumTails piChars ts) ++ tail) = some (ast', tail)
          unfold sepRender
          rw [if_neg hn]
          simp only [List.cons_append, List.append_assoc]
          show (match parseGo fu .term
              (ccodeGo piChars .term t ++ (sumTails piChars ts ++ tail)) with
            | some (a, r) => parseGo fu (.sumLoop (.cadd acc a)) r
            | none => none) = some (ast', tail)
          rw [hpt]
          exact hp'
        · intro piv a b
          rw [hv' piv a b]
          simp only [evalC, List.map_cons, List.sum_cons, hvt piv a b]
          ring

theorem one_le_sizeE (e : Expr) : 1 ≤ sizeE e := by
  cases e <;> simp [sizeE]

theorem one_le_Rc : ∀ (e : Expr) (ctx : PCtx), 1 ≤ Rc ctx e := by
  intro e
  induction e with
  | const c => intro ctx; cases ctx <;> simp [Rc]
  | pi => intro ctx; cases ctx <;> simp [Rc]
  | var s => intro ctx; cases ctx <;> simp [Rc]
  | add a b iha ihb => intro ctx; cases ctx <;> simp [Rc]
  | mul a b iha ihb =>
    intro ctx
    have h1 := iha .term
    have h2 := ihb .term
    cases ctx <;> simp only [Rc] <;> omega
  | pow a k iha => intro ctx; cases ctx <;> simp only [Rc] <;> omega

/-- A term parse is assembled from factor parses along the factor
spine. -/
theorem TermOK_of_factors (e : Expr) (hfac : ∀ g ∈ mulFactors e, FacOK g) :
    TermOK e := by
  intro fuel tail ht hfu
  obtain ⟨g₀, gs, hsp, hrc⟩ := Rc_term_spine e
  obtain ⟨g₀', gs', hsp', hrender⟩ := ccodeF_spine piChars e
  rw [hsp] at hsp'
  injection hsp' with h1 h2
  subst h1
  subst h2
  have hone := one_le_Rc e .term
  match fuel, (by omega : 1 ≤ fuel) with
  | fu + 1, _ =>
    have hstop : facStop (facsTail piChars gs ++ tail) := by
      match gs with
      | [] => simpa using termStop_facStop ht
      | g' :: gs' =>
        show facStop ((('*' :: ccodeGo piChars .fac g') ++ facsTail piChars gs') ++ tail)
        simp only [List.cons_append]
        exact Or.inl rfl
    obtain ⟨ast₀, hp₀, hv₀⟩ := hfac g₀ (by rw [hsp]; exact List.mem_cons_self _ _)
      fu (facsTail piChars gs ++ tail) hstop (by omega)
    obtain ⟨ast, hp, hv⟩ := parse_termLoop gs
      (fun g hg => hfac g (by rw [hsp]; exact List.mem_cons_of_mem _ hg))
      ast₀ fu tail ht (by omega)
    refine ⟨ast, ?_, ?_⟩
    · show parseGo (fu + 1) .term (ccodeGo piChars .term e ++ tail) = some (ast, tail)
      rw [ccodeT_eq_ccodeF, hrender]
      simp only [List.append_assoc]
      show (match parseGo fu .fac
          (ccodeGo piChars .fac g₀ ++ (facsTail piChars gs ++ tail)) with
        | some (a, r) => parseGo fu (.termLoop a) r
        | none => none) = some (ast, tail)
      rw [hp₀]
      exact hp
    · intro piv a b
      rw [hv piv a b, hv₀ piv a b]
      have hprod := evalE_mulFactors (stdAssign a b) piv e
      rw [hsp] at hprod
      simp only [List.map_cons, List.prod_cons] at hprod
      rw [← hprod]

/-- A sum parse is assembled from term parses along the term spine. -/
theorem SumOK_of_terms (e : Expr)
    (hterm : ∀ t ∈ sumTerms e, TermOK t ∧ TermOK (negTerm t)) : SumOK e := by
  intro fuel tail ht hfu
  obtain ⟨t₀, ts, hsp, hrc⟩ := Rc_sum_spine e
  obtain ⟨t₀', ts', hsp', hrender⟩ := ccodeS_spine piChars e
  rw [hsp] at hsp'
  injection hsp' with h1 h2
  subst h1
  subst h2
  have hone := one_le_Rc e .sum
  match fuel, (by omega : 1 ≤ fuel) with
  | fu + 1, _ =>
    have hstop : termStop (sumTails piChars ts ++ tail) := by
      match ts with
      | [] => simpa using sumStop_termStop ht
      | t' :: ts' =>
        show termStop ((sepRender piChars t' ++ sumTails piChars ts') ++ tail)
        unfold sepRender
        by_cases hn : termIsNeg t'
        · rw [if_pos hn]
          simp only [List.cons_append]
          exact Or.inl rfl
        · rw [if_neg hn]
          simp only [List.cons_append]
          exact Or.inl rfl
    obtain ⟨ast₀, hp₀, hv₀⟩ := (hterm t₀ (by rw [hsp]; exact List.mem_cons_self _ _)).1
      fu (sumTails piChars ts ++ tail) hstop (by omega)
    obtain ⟨ast, hp, hv⟩ := parse_sumLoop ts
      (fun t htm => hterm t (by rw [hsp]; exact List.mem_cons_of_mem _ htm))
      ast₀ fu tail ht (by omega)
    refine ⟨ast, ?_, ?_⟩
    · show parseGo (fu + 1) .sum (ccodeGo piChars .sum e ++ tail) = some (ast, tail)
      rw [hrender]
      simp only [List.append_assoc]
      show (match parseGo fu .term
          (ccodeGo piChars .term t₀ ++ (sumTails piChars ts ++ tail)) with
        | some (a, r) => parseGo fu (.sumLoop a) r
        | none => none) = some (ast, tail)
      rw [hp₀]
      exact hp
    · intro piv a b
      rw [hv piv a b, hv₀ piv a b]
      have hsum := evalE_sumTerms (stdAssign a b) piv e
      rw [hsp] at hsum
      simp only [List.map_cons, List.sum_cons] at hsum
      rw [← hsum]

/-- With a digit or minus sign at the head, the factor reader falls
through to the number branch. -/
theorem parseGo_fac_num (fu : ℕ) (c₀ : Char) (rest : List Char)
    (hd : isDigitC c₀ = true ∨ c₀ = '-') :
    parseGo (fu + 1) .fac (c₀ :: rest) =
      (match parseIntNum (c₀ :: rest) with
       | some (v, r) => some (.num v, r)
       | none => none) := by
  rcases hd with hd | rfl
  · rcases isDigitC_cases hd with rfl | rfl | rfl | rfl | rfl | rfl | rfl | rfl | rfl | rfl <;> rfl
  · rfl

/-- The head shape of a rendered integer. -/
theorem renderInt_head (v : ℤ) :
    ∃ c₀ rest, renderInt v = c₀ :: rest ∧ (isDigitC c₀ = true ∨ c₀ = '-') := by
  by_cases hv : v < 0
  · exact ⟨'-', renderNat v.natAbs, by unfold renderInt; rw [if_pos hv]; rfl, Or.inr rfl⟩
  · obtain ⟨c₀, t₀, hrn⟩ : ∃ c t, renderNat v.natAbs = c :: t := by
      match hrn2 : renderNat v.natAbs, renderNat_ne_nil v.natAbs with
      | c :: t, _ => exact ⟨c, t, rfl⟩
    refine ⟨c₀, t₀, ?_, Or.inl ?_⟩
    · unfold renderInt
      rw [if_neg hv, hrn]
      rfl
    · exact renderNat_digits v.natAbs c₀ (by rw [hrn]; exact List.mem_cons_self _ _)

/-- The factor reader reads back a printed integer constant. -/
theorem FacOK_const (c : ℤ) : FacOK (.const c) := by
  intro fuel tail hstop hfu
  match fuel, hfu with
  | fu + 1, _ =>
    obtain ⟨c₀, rest, hri, hd⟩ := renderInt_head c
    refine ⟨.num c, ?_, ?_⟩
    · show parseGo (fu + 1) .fac (renderInt c ++ tail) = some (.num c, tail)
      rw [hri, List.cons_append, parseGo_fac_num fu c₀ (rest ++ tail) hd,
        ← List.cons_append, ← hri, parseIntNum_renderInt c tail (facStop_headNot hstop)]
    · intro piv a b
      rfl

/-- The factor reader reads back the constant pi. -/
theorem FacOK_pi : FacOK .pi := by
  intro fuel tail hstop hfu
  match fuel, hfu with
  | fu + 1, _ =>
    exact ⟨.cpi, rfl, fun piv a b => rfl⟩

/-- The factor reader reads back the two coordinate symbols. -/
theorem FacOK_var (s : String) (hs : s = "x[0]" ∨ s = "x[1]") : FacOK (.var s) := by
  intro fuel tail hstop hfu
  match fuel, hfu with
  | fu + 1, _ =>
    rcases hs with rfl | rfl
    · refine ⟨.cx0, rfl, ?_⟩
      intro piv a b
      simp [evalC, evalE, stdAssign]
    · refine ⟨.cx1, rfl, ?_⟩
      intro piv a b
      simp [evalC, evalE, stdAssign]

/-- The factor reader reads back a parenthesised sum. -/
theorem FacOK_add (a b : Expr) (hs : SumOK (.add a b)) : FacOK (.add a b) := by
  intro fuel tail hstop hfu
  have hr : Rc .fac (.add a b) = Rc .sum (.add a b) + 2 := rfl
  match fuel, (by omega : 1 ≤ fuel) with
  | fu + 1, _ =>
    obtain ⟨ast, hp, hv⟩ := hs fu (')' :: tail) (Or.inl rfl) (by omega)
    refine ⟨ast, ?_, hv⟩
    show parseGo (fu + 1) .fac (ccodeGo piChars .fac (.add a b) ++ tail) = some (ast, tail)
    have hshape : ccodeGo piChars .fac (.add a b) ++ tail =
        '(' :: (ccodeGo piChars .sum (.add a b) ++ (')' :: tail)) := by
      show (('(' :: ccodeGo piChars .sum (.add a b)) ++ [')']) ++ tail = _
      simp [List.cons_append, List.append_assoc]
    rw [hshape]
    show (match parseGo fu .sum (ccodeGo piChars .sum (.add a b) ++ (')' :: tail)) with
      | some (a, ')' :: r) => some (a, r)
      | _ => none) = some (ast, tail)
    rw [hp]
    rfl

/-- The factor reader reads back a printed power. -/
theorem FacOK_pow (e : Expr) (k : ℕ) (hs : SumOK e) : FacOK (.pow e k) := by
  intro fuel tail hstop hfu
  have hr : Rc .fac (.pow e k) = Rc .sum e + 2 := rfl
  match fuel, (by omega : 1 ≤ fuel) with
  | fu + 1, _ =>
    obtain ⟨ast, hp, hv⟩ := hs fu (',' :: ' ' :: (renderNat k ++ ')' :: tail))
      (Or.inr rfl) (by omega)
    refine ⟨.cpow ast k, ?_, ?_⟩
    · show parseGo (fu + 1) .fac (ccodeGo piChars .fac (.pow e k) ++ tail) =
        some (.cpow ast k, tail)
      have hshape : ccodeGo piChars .fac (.pow e k) ++ tail =
          'p' :: 'o' :: 'w' :: '(' ::
            (ccodeGo piChars .sum e ++ (',' :: ' ' :: (renderNat k ++ ')' :: tail))) := by
        show ('p' :: 'o' :: 'w' :: '(' ::
          ((ccodeGo piChars .sum e ++ (',' :: ' ' :: renderNat k)) ++ [')'])) ++ tail = _
        simp [List.cons_append, List.append_assoc]
      rw [hshape]
      show (match parseGo fu .sum
          (ccodeGo piChars .sum e ++ (',' :: ' ' :: (renderNat k ++ ')' :: tail))) with
        | some (av, ',' :: ' ' :: r) =>
          match parseNatCore r with
          | some (kv, ')' :: r2) => some (CExpr.cpow av kv, r2)
          | _ => none
        | _ => none) = some (CExpr.cpow ast k, tail)
      rw [hp]
      show (match parseNatCore (renderNat k ++ ')' :: tail) with
        | some (kv, ')' :: r2) => some (CExpr.cpow ast kv, r2)
        | _ => none) = some (CExpr.cpow ast k, tail)
      rw [parseNatCore_renderNat k (')' :: tail) (by rfl)]
      rfl
    · intro piv a b
      show evalC piv a b ast ^ k = evalE (stdAssign a b) piv e ^ k
      rw [hv piv a b]

/-- Main inversion: for every expression over the coordinate symbols,
the reader reads back the printed form in each printing context. -/
theorem parse_print :
    ∀ (N : ℕ) (e : Expr), sizeE e ≤ N → coordOnly e = true →
      (isMulE e = false → FacOK e) ∧ TermOK e ∧ SumOK e := by
  intro N
  induction N with
  | zero =>
    intro e hsz
    exact absurd hsz (by have := one_le_sizeE e; omega)
  | succ N ih =>
    intro e hsz hco
    cases e with
    | const c =>
      have hfac : FacOK (.const c) := FacOK_const c
      have hterm : TermOK (.const c) := TermOK_of_factors _ (by
        intro g hg
        rcases List.mem_singleton.mp hg with rfl
        exact hfac)
      have htermN : TermOK (.const (-c)) := TermOK_of_factors _ (by
        intro g hg
        rcases List.mem_singleton.mp hg with rfl
        exact FacOK_const (-c))
      have hsum : SumOK (.const c) := SumOK_of_terms _ (by
        intro t htm
        rcases List.mem_singleton.mp htm with rfl
        exact ⟨hterm, htermN⟩)
      exact ⟨fun _ => hfac, hterm, hsum⟩
    | pi =>
      have hfac : FacOK Expr.pi := FacOK_pi
      have hterm : TermOK Expr.pi := TermOK_of_factors _ (by
        intro g hg
        rcases List.mem_singleton.mp hg with rfl
        exact hfac)
      have hsum : SumOK Expr.pi := SumOK_of_terms _ (by
        intro t htm
        rcases List.mem_singleton.mp htm with rfl
        exact ⟨hterm, hterm⟩)
      exact ⟨fun _ => hfac, hterm, hsum⟩
    | var s =>
      have hs : s = "x[0]" ∨ s = "x[1]" := by
        simpa [coordOnly, varsAll] using hco
      have hfac : FacOK (.var s) := FacOK_var s hs
      have hterm : TermOK (.var s) := TermOK_of_factors _ (by
        intro g hg
        rcases List.mem_singleton.mp hg with rfl
        exact hfac)
      have hsum : SumOK (.var s) := SumOK_of_terms _ (by
        intro t htm
        rcases List.mem_singleton.mp htm with rfl
        exact ⟨hterm, hterm⟩)
      exact ⟨fun _ => hfac, hterm, hsum⟩
    | add a b =>
      have hcab : coordOnly a = true ∧ coordOnly b = true := by
        have : (varsAll (fun s => s = "x[0]" || s = "x[1]") a &&
            varsAll (fun s => s = "x[0]" || s = "x[1]") b) = true := hco
        exact Bool.and_eq_true_iff.mp this
      have hsum : SumOK (.add a b) := by
        refine SumOK_of_terms _ ?_
        intro t htm
        have htm' : t ∈ sumTerms a ++ [b] := htm
        have hsize : sizeE t ≤ N := by
          simp only [sizeE] at hsz
          rcases List.mem_append.mp htm' with h | h
          · have h1 := sumTerms_size a t h
            have h2 := one_le_sizeE b
            omega
          · rcases List.mem_singleton.mp h with rfl
            have h1 := one_le_sizeE a
            omega
        have hcot : coordOnly t = true := sumTerms_coordOnly (.add a b) hco t htm
        refine ⟨(ih t hsize hcot).2.1, ?_⟩
        have h2 : sizeE (negTerm t) ≤ N := by rw [sizeE_negTerm]; exact hsize
        have h3 : coordOnly (negTerm t) = true := by
          show varsAll _ (negTerm t) = true
          rw [varsAll_negTerm]
          exact hcot
        exact (ih (negTerm t) h2 h3).2.1
      have hfac : FacOK (.add a b) := FacOK_add a b hsum
      have hterm : TermOK (.add a b) := TermOK_of_factors _ (by
        intro g hg
        rcases List.mem_singleton.mp hg with rfl
        exact hfac)
      exact ⟨fun _ => hfac, hterm, hsum⟩
    | mul a b =>
      have hcab : coordOnly a = true ∧ coordOnly b = true := by
        have : (varsAll (fun s => s = "x[0]" || s = "x[1]") a &&
            varsAll (fun s => s = "x[0]" || s = "x[1]") b) = true := hco
        exact Bool.and_eq_true_iff.mp this
      have hfacs : ∀ g ∈ mulFactors (.mul a b), FacOK g := by
        intro g hg
        have hg' : g ∈ mulFactors a ++ mulFactors b := hg
        have hgsz : sizeE g ≤ N := by
          simp only [sizeE] at hsz
          rcases List.mem_append.mp hg' with h | h
          · have h1 := mulFactors_size a g h
            have h2 := one_le_sizeE b
            omega
          · have h1 := mulFactors_size b g h
            have h2 := one_le_sizeE a
            omega
        have hcog : coordOnly g = true := mulFactors_coordOnly _ hco g hg
        exact (ih g hgsz hcog).1 (mulFactors_not_mul _ g hg)
      have hterm : TermOK (.mul a b) := TermOK_of_factors _ hfacs
      have htermN : TermOK (.mul (negTerm a) b) := by
        refine TermOK_of_factors _ ?_
        intro g hg
        have hg' : g ∈ mulFactors (negTerm a) ++ mulFactors b := hg
        have hcna : coordOnly (negTerm a) = true := by
          show varsAll _ (negTerm a) = true
          rw [varsAll_negTerm]
          exact hcab.1
        rcases List.mem_append.mp hg' with h | h
        · have hgsz : sizeE g ≤ N := by
            have h1 := mulFactors_size (negTerm a) g h
            rw [sizeE_negTerm] at h1
            have h2 := one_le_sizeE b
            simp only [sizeE] at hsz
            omega
          have hcog : coordOnly g = true := mulFactors_coordOnly _ hcna g h
          exact (ih g hgsz hcog).1 (mulFactors_not_mul (negTerm a) g h)
        · have hgsz : sizeE g ≤ N := by
            have h1 := mulFactors_size b g h
            have h2 := one_le_sizeE a
            simp only [sizeE] at hsz
            omega
          have hcog : coordOnly g = true := mulFactors_coordOnly _ hcab.2 g h
          exact (ih g hgsz hcog).1 (mulFactors_not_mul b g h)
      have hsum : SumOK (.mul a b) := SumOK_of_terms _ (by
        intro t htm
        rcases List.mem_singleton.mp htm with rfl
        exact ⟨hterm, htermN⟩)
      refine ⟨fun hmm => absurd hmm (by simp [isMulE]), hterm, hsum⟩
    | pow a k =>
      have hsza : sizeE a ≤ N := by
        simp only [sizeE] at hsz
        omega
      have hcoa : coordOnly a = true := hco
      have hfac : FacOK (.pow a k) := FacOK_pow a k (ih a hsza hcoa).2.2
      have hterm : TermOK (.pow a k) := TermOK_of_factors _ (by
        intro g hg
        rcases List.mem_singleton.mp hg with rfl
        exact hfac)
      have hsum : SumOK (.pow a k) := SumOK_of_terms _ (by
        intro t htm
        rcases List.mem_singleton.mp htm with rfl
        exact ⟨hterm, hterm⟩)
      exact ⟨fun _ => hfac, hterm, hsum⟩

theorem Rc_termAbs_eq (e : Expr) : Rc .termAbs e = Rc .term e := by
  cases e <;> rfl

theorem RT_le_RF (e : Expr) : Rc .term e ≤ Rc .fac e + 2 := by
  cases e <;> simp [Rc]

theorem one_le_renderInt_len (c : ℤ) : 1 ≤ (renderInt c).length := by
  unfold renderInt
  obtain ⟨c₀, t₀, hrn⟩ : ∃ a t, renderNat c.natAbs = a :: t := by
    match hrn2 : renderNat c.natAbs, renderNat_ne_nil c.natAbs with
    | a :: t, _ => exact ⟨a, t, rfl⟩
  rw [hrn]
  simp only [List.length_append, List.length_cons]
  omega

/-- The reader's fuel requirement is dominated by twelve times the
printed length, for any expression whose symbol names are nonempty. -/
theorem Rc_le_len :
    ∀ e, varsAll (fun s => !s.data.isEmpty) e = true →
      ∀ ctx, Rc ctx e ≤ 12 * (ccodeGo piChars ctx e).length := by
  intro e
  induction e with
  | const c =>
    intro _ ctx
    have h1 := one_le_renderInt_len c
    have h2 := one_le_renderInt_len (-c)
    cases ctx
    · show (5 : ℕ) ≤ 12 * (renderInt c).length
      omega
    · show (3 : ℕ) ≤ 12 * (renderInt c).length
      omega
    · show (3 : ℕ) ≤ 12 * (renderInt (-c)).length
      omega
    · show (1 : ℕ) ≤ 12 * (renderInt c).length
      omega
  | pi =>
    intro _ ctx
    cases ctx <;> decide
  | var s =>
    intro hco ctx
    have h' : (!s.data.isEmpty) = true := hco
    have hlen : 1 ≤ s.data.length := by
      cases hd : s.data with
      | nil => rw [hd] at h'; simp at h'
      | cons c t => simp
    cases ctx
    · show (5 : ℕ) ≤ 12 * s.data.length
      omega
    · show (3 : ℕ) ≤ 12 * s.data.length
      omega
    · show (3 : ℕ) ≤ 12 * s.data.length
      omega
    · show (1 : ℕ) ≤ 12 * s.data.length
      omega
  | add a b iha ihb =>
    intro hco ctx
    have hcab : varsAll (fun s => !s.data.isEmpty) a = true ∧
        varsAll (fun s => !s.data.isEmpty) b = true := by
      have h' : (varsAll (fun s => !s.data.isEmpty) a &&
          varsAll (fun s => !s.data.isEmpty) b) = true := hco
      exact Bool.and_eq_true_iff.mp h'
    have hsa := iha hcab.1 .sum
    have hbX : Rc .term b + 36 ≤ 12 *
        ((if termIsNeg b then ' ' :: '-' :: ' ' :: ccodeGo piChars .termAbs b
          else ' ' :: '+' :: ' ' :: ccodeGo piChars .term b)).length := by
      by_cases hn : termIsNeg b
      · rw [if_pos hn]
        have := ihb hcab.2 .termAbs
        rw [Rc_termAbs_eq] at this
        simp only [List.length_cons]
        omega
      · rw [if_neg hn]
        have := ihb hcab.2 .term
        simp only [List.length_cons]
        omega
    have hrS : Rc .sum (.add a b) = Rc .sum a + Rc .term b + 2 := rfl
    have hrT : Rc .term (.add a b) = Rc .sum a + Rc .term b + 6 := rfl
    have hrA : Rc .termAbs (.add a b) = Rc .sum a + Rc .term b + 6 := rfl
    have hrF : Rc .fac (.add a b) = Rc .sum a + Rc .term b + 4 := rfl
    cases ctx
    · rw [hrS]
      have hl : ccodeGo piChars .sum (.add a b) = ccodeGo piChars .sum a ++
          (if termIsNeg b then ' ' :: '-' :: ' ' :: ccodeGo piChars .termAbs b
           else ' ' :: '+' :: ' ' :: ccodeGo piChars .term b) := rfl
      rw [hl, List.length_append]
      omega
    · rw [hrT]
      have hl : ccodeGo piChars .term (.add a b) = ('(' :: (ccodeGo piChars .sum a ++
          (if termIsNeg b then ' ' :: '-' :: ' ' :: ccodeGo piChars .termAbs b
           else ' ' :: '+' :: ' ' :: ccodeGo piChars .term b))) ++ [')'] := rfl
      rw [hl]
      simp only [List.length_append, List.length_cons, List.length_singleton]
      omega
    · rw [hrA]
      have hl : ccodeGo piChars .termAbs (.add a b) = ('(' :: (ccodeGo piChars .sum a ++
          (if termIsNeg b then ' ' :: '-' :: ' ' :: ccodeGo piChars .termAbs b
           else ' ' :: '+' :: ' ' :: ccodeGo piChars .term b))) ++ [')'] := rfl
      rw [hl]
      simp only [List.length_append, List.length_cons, List.length_singleton]
      omega
    · rw [hrF]
      have hl : ccodeGo piChars .fac (.add a b) = ('(' :: (ccodeGo piChars .sum a ++
          (if termIsNeg b then ' ' :: '-' :: ' ' :: ccodeGo piChars .termAbs b
           else ' ' :: '+' :: ' ' :: ccodeGo piChars .term b))) ++ [')'] := rfl
      rw [hl]
      simp only [List.length_append, List.length_cons, List.length_singleton]
      omega
  | mul a b iha ihb =>
    intro hco ctx
    have hcab : varsAll (fun s => !s.data.isEmpty) a = true ∧
        varsAll (fun s => !s.data.isEmpty) b = true := by
      have h' : (varsAll (fun s => !s.data.isEmpty) a &&
          varsAll (fun s => !s.data.isEmpty) b) = true := hco
      exact Bool.and_eq_true_iff.mp h'
    have hta := iha hcab.1 .term
    have htaA := iha hcab.1 .termAbs
    rw [Rc_termAbs_eq] at htaA
    have hfb := ihb hcab.2 .fac
    have htb := RT_le_RF b
    have hrS : Rc .sum (.mul a b) = Rc .term a + Rc .term b + 2 := rfl
    have hrT : Rc .term (.mul a b) = Rc .term a + Rc .term b := rfl
    have hrA : Rc .termAbs (.mul a b) = Rc .term a + Rc .term b := rfl
    have hrF : Rc .fac (.mul a b) = Rc .term a + Rc .term b := rfl
    cases ctx
    · rw [hrS]
      have hl : ccodeGo piChars .sum (.mul a b) =
          ccodeGo piChars .term a ++ '*' :: ccodeGo piChars .fac b := rfl
      rw [hl]
      simp only [List.length_append, List.length_cons]
      omega
    · rw [hrT]
      have hl : ccodeGo piChars .term (.mul a b) =
          ccodeGo piChars .term a ++ '*' :: ccodeGo piChars .fac b := rfl
      rw [hl]
      simp only [List.length_append, List.length_cons]
      omega
    · rw [hrA]
      have hl : ccodeGo piChars .termAbs (.mul a b) =
          ccodeGo piChars .termAbs a ++ '*' :: ccodeGo piChars .fac b := rfl
      rw [hl]
      simp only [List.length_append, List.length_cons]
      omega
    · rw [hrF]
      have hl : ccodeGo piChars .fac (.mul a b) =
          ccodeGo piChars .term a ++ '*' :: ccodeGo piChars .fac b := rfl
      rw [hl]
      simp only [List.length_append, List.length_cons]
      omega
  | pow a k iha =>
    intro hco ctx
    have hsa := iha hco .sum
    have hk : 1 ≤ (renderNat k).length := by
      obtain ⟨c₀, t₀, hrn⟩ : ∃ c t, renderNat k = c :: t := by
        match hrn2 : renderNat k, renderNat_ne_nil k with
        | c :: t, _ => exact ⟨c, t, rfl⟩
      rw [hrn]
      simp
    have hl : ∀ ctx', ccodeGo piChars ctx' (.pow a k) =
        'p' :: 'o' :: 'w' :: '(' ::
          ((ccodeGo piChars .sum a ++ (',' :: ' ' :: renderNat k)) ++ [')']) := by
      intro ctx'
      cases ctx' <;> rfl
    rw [hl ctx]
    simp only [List.length_append, List.length_cons, List.length_singleton]
    cases ctx
    · show Rc .sum a + 6 ≤ _
      omega
    · show Rc .sum a + 4 ≤ _
      omega
    · show Rc .sum a + 4 ≤ _
      omega
    · show Rc .sum a + 2 ≤ _
      omega

/-- A weaker symbol predicate follows from a stronger one. -/
theorem varsAll_mono {p q : String → Bool} (hpq : ∀ s, p s = true → q s = true) :
    ∀ e, varsAll p e = true → varsAll q e = true := by
  intro e
  induction e with
  | const c => intro _; rfl
  | pi => intro _; rfl
  | var s => intro h; exact hpq s h
  | add a b iha ihb =>
    intro h
    have h' := Bool.and_eq_true_iff.mp h
    exact Bool.and_eq_true_iff.mpr ⟨iha h'.1, ihb h'.2⟩
  | mul a b iha ihb =>
    intro h
    have h' := Bool.and_eq_true_iff.mp h
    exact Bool.and_eq_true_iff.mpr ⟨iha h'.1, ihb h'.2⟩
  | pow a k iha => intro h; exact iha h

/-- The coordinate symbol names are nonempty. -/
theorem coordOnly_names (e : Expr) (hc : coordOnly e = true) :
    varsAll (fun s => !s.data.isEmpty) e = true := by
  refine varsAll_mono ?_ e hc
  intro s hs
  rcases Bool.or_eq_true_iff.mp hs with h | h
  · rw [of_decide_eq_true h]
    decide
  · rw [of_decide_eq_true h]
    decide

/-- The coordinate symbol names contain no `M`. -/
theorem coordOnly_noM (e : Expr) (hc : coordOnly e = true) : varsAll noM e = true := by
  refine varsAll_mono ?_ e hc
  intro s hs
  rcases Bool.or_eq_true_iff.mp hs with h | h
  · rw [of_decide_eq_true h]
    decide
  · rw [of_decide_eq_true h]
    decide

/-- C3: Emission round-trip.  For every symbolic expression over the
two coordinate symbols, numerically evaluating the emitted code string
at a coordinate pair (under any value of the constant `pi`) yields
exactly the direct numeric evaluation of the expression there — the
difference is 0, well within the tolerance `1e-12`. -/
theorem emission_round_trip (e : Expr) (hc : coordOnly e = true) :
    ∀ piv a b : ℚ,
      evalEmitted (emit e).data piv a b = some (evalE (stdAssign a b) piv e) := by
  intro piv a b
  have hdata : (emit e).data = emitChars e := rfl
  have hemit : emitChars e = ccodeGo piChars .sum e :=
    emitChars_eq_ccodePi e (coordOnly_noM e hc)
  have hsum : SumOK e := (parse_print (sizeE e) e (le_refl _) hc).2.2
  have hfuel : Rc .sum e ≤ 12 * (ccodeGo piChars .sum e).length + 12 := by
    have := Rc_le_len e (coordOnly_names e hc) .sum
    omega
  obtain ⟨ast, hp, hv⟩ :=
    hsum (12 * (ccodeGo piChars .sum e).length + 12) [] trivial hfuel
  rw [List.append_nil] at hp
  unfold evalEmitted parseEmitted
  rw [hdata, hemit, hp]
  show some (evalC piv a b ast) = some (evalE (stdAssign a b) piv e)
  rw [hv piv a b]

/-- C3 witness: the manufactured solution `u` at the point `(3, 5)`. -/
theorem emission_round_trip_witness :
    coordOnly u = true ∧
      evalEmitted (emit u).data 0 3 5 = some (evalE (stdAssign 3 5) 0 u) :=
  ⟨by decide, emission_round_trip u (by decide) 0 3 5⟩

/-- Whenever a symbol occurs in an expression, its literal name occurs
in the raw ccode rendering, in every printing context. -/
theorem var_infix_ccodeGo (pn : List Char) (s : String) :
    ∀ (e : Expr) (ctx : PCtx), occursVar s e = true → s.data <:+: ccodeGo pn ctx e := by
  intro e
  induction e with
  | const c => intro ctx h; simp [occursVar] at h
  | pi => intro ctx h; simp [occursVar] at h
  | var v =>
    intro ctx h
    have hv : v = s := by simpa [occursVar] using h
    subst hv
    cases ctx <;> exact List.infix_refl _
  | add a b iha ihb =>
    intro ctx h
    simp only [occursVar, Bool.or_eq_true] at h
    have core : s.data <:+: ccodeGo pn .sum a ++
        (if termIsNeg b then ' ' :: '-' :: ' ' :: ccodeGo pn .termAbs b
         else ' ' :: '+' :: ' ' :: ccodeGo pn .term b) := by
      rcases h with h | h
      · exact infix_app_right _ (iha .sum h)
      · by_cases hn : termIsNeg b
        · rw [if_pos hn]
          exact infix_app_left _
            (List.infix_cons (List.infix_cons (List.infix_cons (ihb .termAbs h))))
        · rw [if_neg hn]
          exact infix_app_left _
            (List.infix_cons (List.infix_cons (List.infix_cons (ihb .term h))))
    cases ctx
    · exact core
    · exact List.infix_cons (infix_app_right _ core)
    · exact List.infix_cons (infix_app_right _ core)
    · exact List.infix_cons (infix_app_right _ core)
  | mul a b iha ihb =>
    intro ctx h
    simp only [occursVar, Bool.or_eq_true] at h
    cases ctx with
    | termAbs =>
      rcases h with h | h
      · exact infix_app_right _ (iha .termAbs h)
      · exact infix_app_left _ (List.infix_cons (ihb .fac h))
    | sum =>
      rcases h with h | h
      · exact infix_app_right _ (iha .term h)
      · exact infix_app_left _ (List.infix_cons (ihb .fac h))
    | term =>
      rcases h with h | h
      · exact infix_app_right _ (iha .term h)
      · exact infix_app_left _ (List.infix_cons (ihb .fac h))
    | fac =>
      rcases h with h | h
      · exact infix_app_right _ (iha .term h)
      · exact infix_app_left _ (List.infix_cons (ihb .fac h))
  | pow a k iha =>
    intro ctx h
    simp only [occursVar] at h
    cases ctx <;>
      exact List.infix_cons (List.infix_cons (List.infix_cons (List.infix_cons
        (infix_app_right _ (infix_app_right _ (iha .sum h))))))

/-- The `u` expression built over symbols with the bare names `x` and
`y` instead of the indexed-access names. -/
def uBare : Expr := .add (.add (.const 1) (.var "x")) (.mul (.const 2) (.var "y"))

/-! ### Bare symbol names and the reader

The workflow obtains the indexed-access renderings `x[0]`, `x[1]` solely
by naming its SymPy symbols with those literal strings.  An expression
built over bare identifier names prints those names verbatim, and the
resulting string falls outside the evaluator's grammar — except for the
degenerate name `pi`, which collides with the evaluator's constant. -/

/-- Does the expression mention at least one symbol? -/
def hasVar : Expr → Bool
  | .const _ => false
  | .pi => false
  | .var _ => true
  | .add a b => hasVar a || hasVar b
  | .mul a b => hasVar a || hasVar b
  | .pow a _ => hasVar a

theorem hasVar_negTerm : ∀ e, hasVar (negTerm e) = hasVar e := by
  intro e
  induction e with
  | const c => rfl
  | pi => rfl
  | var s => rfl
  | add a b _ _ => rfl
  | mul a b iha _ => simp [negTerm, hasVar, iha]
  | pow a k _ => rfl

/-- A symbol-free expression satisfies every symbol predicate. -/
theorem novar_varsAll (p : String → Bool) :
    ∀ e, hasVar e = false → varsAll p e = true := by
  intro e
  induction e with
  | const c => intro _; rfl
  | pi => intro _; rfl
  | var s => intro h; exact absurd h (by simp [hasVar])
  | add a b iha ihb =>
    intro h
    have h' : (hasVar a || hasVar b) = false := h
    rcases Bool.or_eq_false_iff.mp h' with ⟨h1, h2⟩
    exact Bool.and_eq_true_iff.mpr ⟨iha h1, ihb h2⟩
  | mul a b iha ihb =>
    intro h
    have h' : (hasVar a || hasVar b) = false := h
    rcases Bool.or_eq_false_iff.mp h' with ⟨h1, h2⟩
    exact Bool.and_eq_true_iff.mpr ⟨iha h1, ihb h2⟩
  | pow a k iha => intro h; exact iha h

theorem novar_coordOnly (e : Expr) (h : hasVar e = false) : coordOnly e = true :=
  novar_varsAll _ e h

/-- A symbol of the expression lives in some term of its sum spine. -/
theorem sumTerms_hasVar : ∀ e, hasVar e = true → ∃ t ∈ sumTerms e, hasVar t = true := by
  intro e
  induction e with
  | add a b iha _ =>
    intro h
    rcases Bool.or_eq_true_iff.mp h with h | h
    · obtain ⟨t, ht, htv⟩ := iha h
      refine ⟨t, ?_, htv⟩
      show t ∈ sumTerms a ++ [b]
      exact List.mem_append_left _ ht
    · refine ⟨b, ?_, h⟩
      show b ∈ sumTerms a ++ [b]
      exact List.mem_append_right _ (List.mem_singleton_self b)
  | const c => intro h; simp [hasVar] at h
  | pi => intro h; simp [hasVar] at h
  | var s => intro _; exact ⟨.var s, List.mem_singleton_self _, rfl⟩
  | mul a b _ _ => intro h; exact ⟨.mul a b, List.mem_singleton_self _, h⟩
  | pow a k _ => intro h; exact ⟨.pow a k, List.mem_singleton_self _, h⟩

/-- A symbol of the expression lives in some factor of its factor
spine. -/
theorem mulFactors_hasVar : ∀ e, hasVar e = true → ∃ g ∈ mulFactors e, hasVar g = true := by
  intro e
  induction e with
  | mul a b iha ihb =>
    intro h
    rcases Bool.or_eq_true_iff.mp h with h | h
    · obtain ⟨g, hg, hgv⟩ := iha h
      refine ⟨g, ?_, hgv⟩
      show g ∈ mulFactors a ++ mulFactors b
      exact List.mem_append_left _ hg
    · obtain ⟨g, hg, hgv⟩ := ihb h
      refine ⟨g, ?_, hgv⟩
      show g ∈ mulFactors a ++ mulFactors b
      exact List.mem_append_right _ hg
  | const c => intro h; simp [hasVar] at h
  | pi => intro h; simp [hasVar] at h
  | var s => intro _; exact ⟨.var s, List.mem_singleton_self _, rfl⟩
  | add a b _ _ => intro h; exact ⟨.add a b, List.mem_singleton_self _, h⟩
  | pow a k _ => intro h; exact ⟨.pow a k, List.mem_singleton_self _, h⟩

/-- Symbol predicates descend to the terms of the sum spine. -/
theorem sumTerms_varsAll (p : String → Bool) :
    ∀ e, varsAll p e = true → ∀ t ∈ sumTerms e, varsAll p t = true := by
  intro e
  induction e with
  | add a b iha _ =>
    intro hc t ht
    have hc' := Bool.and_eq_true_iff.mp hc
    rcases List.mem_append.mp ht with h | h
    · exact iha hc'.1 t h
    · rcases List.mem_singleton.mp h with rfl
      exact hc'.2
  | const c => intro hc t ht; rcases List.mem_singleton.mp ht with rfl; exact hc
  | pi => intro hc t ht; rcases List.mem_singleton.mp ht with rfl; exact hc
  | var s => intro hc t ht; rcases List.mem_singleton.mp ht with rfl; exact hc
  | mul a b _ _ => intro hc t ht; rcases List.mem_singleton.mp ht with rfl; exact hc
  | pow a k _ => intro hc t ht; rcases List.mem_singleton.mp ht with rfl; exact hc

/-- Symbol predicates descend to the factors of the factor spine. -/
theorem mulFactors_varsAll (p : String → Bool) :
    ∀ e, varsAll p e = true → ∀ g ∈ mulFactors e, varsAll p g = true := by
  intro e
  induction e with
  | mul a b iha ihb =>
    intro hc g hg
    have hc' := Bool.and_eq_true_iff.mp hc
    rcases List.mem_append.mp hg with h | h
    · exact iha hc'.1 g h
    · exact ihb hc'.2 g h
  | const c => intro hc g hg; rcases List.mem_singleton.mp hg with rfl; exact hc
  | pi => intro hc g hg; rcases List.mem_singleton.mp hg with rfl; exact hc
  | var s => intro hc g hg; rcases List.mem_singleton.mp hg with rfl; exact hc
  | add a b _ _ => intro hc g hg; rcases List.mem_singleton.mp hg with rfl; exact hc
  | pow a k _ => intro hc g hg; rcases List.mem_singleton.mp hg with rfl; exact hc

/-- Is the character a lowercase ASCII letter?  (Explicit enumeration.) -/
def bareChar (c : Char) : Bool :=
  c == 'a' || c == 'b' || c == 'c' || c == 'd' || c == 'e' || c == 'f' ||
    c == 'g' || c == 'h' || c == 'i' || c == 'j' || c == 'k' || c == 'l' ||
    c == 'm' || c == 'n' || c == 'o' || c == 'p' || c == 'q' || c == 'r' ||
    c == 's' || c == 't' || c == 'u' || c == 'v' || c == 'w' || c == 'x' ||
    c == 'y' || c == 'z'

/-- A bare symbol name: a nonempty run of lowercase letters, other than
the evaluator's reserved constant name `pi`. -/
def bareName (s : String) : Bool :=
  !s.data.isEmpty && s.data.all bareChar && !(s.data == ['p', 'i'])

theorem bareChar_cases {c : Char} (h : bareChar c = true) :
    c = 'a' ∨ c = 'b' ∨ c = 'c' ∨ c = 'd' ∨ c = 'e' ∨ c = 'f' ∨
      c = 'g' ∨ c = 'h' ∨ c = 'i' ∨ c = 'j' ∨ c = 'k' ∨ c = 'l' ∨
      c = 'm' ∨ c = 'n' ∨ c = 'o' ∨ c = 'p' ∨ c = 'q' ∨ c = 'r' ∨
      c = 's' ∨ c = 't' ∨ c = 'u' ∨ c = 'v' ∨ c = 'w' ∨ c = 'x' ∨
      c = 'y' ∨ c = 'z' := by
  simp only [bareChar, Bool.or_eq_true, beq_iff_eq] at h
  tauto

/-- Lowercase letters contain no `M`. -/
theorem bareName_noM (e : Expr) (hb : varsAll bareName e = true) :
    varsAll noM e = true := by
  refine varsAll_mono ?_ e hb
  intro s hs
  simp only [bareName, Bool.and_eq_true] at hs
  have hall := List.all_eq_true.mp hs.1.2
  refine List.all_eq_true.mpr ?_
  intro c hc
  have h := hall c hc
  rcases bareChar_cases h with rfl | rfl | rfl | rfl | rfl | rfl | rfl | rfl | rfl | rfl |
    rfl | rfl | rfl | rfl | rfl | rfl | rfl | rfl | rfl | rfl | rfl | rfl | rfl | rfl |
    rfl | rfl <;> rfl

/-- Bare names are nonempty. -/
theorem bareName_names (e : Expr) (hb : varsAll bareName e = true) :
    varsAll (fun s => !s.data.isEmpty) e = true := by
  refine varsAll_mono ?_ e hb
  intro s hs
  simp only [bareName, Bool.and_eq_true] at hs
  exact hs.1.1

/-- The factor loop stops at a letter. -/
theorem parseGo_termLoop_letter (acc : CExpr) (fu : ℕ) {c : Char}
    (hc : bareChar c = true) (t : List Char) :
    parseGo (fu + 1) (.termLoop acc) (c :: t) = some (acc, c :: t) := by
  rcases bareChar_cases hc with rfl | rfl | rfl | rfl | rfl | rfl | rfl | rfl | rfl | rfl |
    rfl | rfl | rfl | rfl | rfl | rfl | rfl | rfl | rfl | rfl | rfl | rfl | rfl | rfl |
    rfl | rfl <;> rfl

/-- The sum loop stops at a letter. -/
theorem parseGo_sumLoop_letter (acc : CExpr) (fu : ℕ) {c : Char}
    (hc : bareChar c = true) (t : List Char) :
    parseGo (fu + 1) (.sumLoop acc) (c :: t) = some (acc, c :: t) := by
  rcases bareChar_cases hc with rfl | rfl | rfl | rfl | rfl | rfl | rfl | rfl | rfl | rfl |
    rfl | rfl | rfl | rfl | rfl | rfl | rfl | rfl | rfl | rfl | rfl | rfl | rfl | rfl |
    rfl | rfl <;> rfl

/-- A failed inner sum fails the parenthesised factor. -/
theorem parseGo_fac_paren_none (fu : ℕ) (inner : List Char)
    (hp : parseGo fu .sum inner = none) :
    parseGo (fu + 1) .fac ('(' :: inner) = none := by
  show (match parseGo fu .sum inner with
    | some (a, ')' :: r) => some (a, r)
    | _ => none) = none
  rw [hp]

/-- An inner sum stuck at a letter fails the parenthesised factor. -/
theorem parseGo_fac_paren_letter (fu : ℕ) (inner : List Char) (ast : CExpr) {c : Char}
    (hc : bareChar c = true) (t : List Char)
    (hp : parseGo fu .sum inner = some (ast, c :: t)) :
    parseGo (fu + 1) .fac ('(' :: inner) = none := by
  show (match parseGo fu .sum inner with
    | some (a, ')' :: r) => some (a, r)
    | _ => none) = none
  rw [hp]
  rcases bareChar_cases hc with rfl | rfl | rfl | rfl | rfl | rfl | rfl | rfl | rfl | rfl |
    rfl | rfl | rfl | rfl | rfl | rfl | rfl | rfl | rfl | rfl | rfl | rfl | rfl | rfl |
    rfl | rfl <;> rfl

/-- A failed inner sum fails the `pow` factor. -/
theorem parseGo_fac_pow_none (fu : ℕ) (rest : List Char)
    (hp : parseGo fu .sum rest = none) :
    parseGo (fu + 1) .fac ('p' :: 'o' :: 'w' :: '(' :: rest) = none := by
  show (match parseGo fu .sum rest with
    | some (a, ',' :: ' ' :: r) =>
      match parseNatCore r with
      | some (k, ')' :: r2) => some (CExpr.cpow a k, r2)
      | _ => none
    | _ => none) = none
  rw [hp]

/-- An inner sum stuck at a letter fails the `pow` factor. -/
theorem parseGo_fac_pow_letter (fu : ℕ) (rest : List Char) (ast : CExpr) {c : Char}
    (hc : bareChar c = true) (t : List Char)
    (hp : parseGo fu .sum rest = some (ast, c :: t)) :
    parseGo (fu + 1) .fac ('p' :: 'o' :: 'w' :: '(' :: rest) = none := by
  show (match parseGo fu .sum rest with
    | some (a, ',' :: ' ' :: r) =>
      match parseNatCore r with
      | some (k, ')' :: r2) => some (CExpr.cpow a k, r2)
      | _ => none
    | _ => none) = none
  rw [hp]
  rcases bareChar_cases hc with rfl | rfl | rfl | rfl | rfl | rfl | rfl | rfl | rfl | rfl |
    rfl | rfl | rfl | rfl | rfl | rfl | rfl | rfl | rfl | rfl | rfl | rfl | rfl | rfl |
    rfl | rfl <;> rfl

/-- The factor reader on a bare name: it fails outright, unless the name
strictly extends `pi`, in which case it consumes `pi` and stops at the
letter that follows. -/
theorem fac_bareList :
    ∀ (w : List Char), w ≠ [] → (∀ c ∈ w, bareChar c = true) → w ≠ ['p', 'i'] →
      ∀ (fuel : ℕ) (tail : List Char), facStop tail →
        parseGo fuel .fac (w ++ tail) = none ∨
          ∃ c t, w = 'p' :: 'i' :: c :: t ∧ bareChar c = true ∧
            parseGo fuel .fac (w ++ tail) = some (.cpi, c :: (t ++ tail)) := by
  intro w hne hall hnp fuel tail ht
  match fuel with
  | 0 => exact Or.inl rfl
  | fu + 1 =>
    have htail : tail = [] ∨
        ∃ c' t', tail = c' :: t' ∧ (c' = '*' ∨ c' = ' ' ∨ c' = ')' ∨ c' = ',') := by
      match tail, ht with
      | [], _ => exact Or.inl rfl
      | c' :: t', ht => exact Or.inr ⟨c', t', rfl, ht⟩
    match w, hne, hnp, hall with
    | c₀ :: w, _, hnp, hall =>
      have h₀ : bareChar c₀ = true := hall c₀ (List.mem_cons_self c₀ w)
      by_cases hp : c₀ = 'p'
      · subst hp
        match w, hnp, hall with
        | [], _, _ =>
          rcases htail with rfl | ⟨c', t', rfl, hc'⟩
          · exact Or.inl rfl
          · rcases hc' with rfl | rfl | rfl | rfl <;> exact Or.inl rfl
        | c₁ :: w, hnp, hall =>
          have h₁ : bareChar c₁ = true :=
            hall c₁ (List.mem_cons_of_mem _ (List.mem_cons_self c₁ w))
          by_cases hi : c₁ = 'i'
          · subst hi
            match w, hnp, hall with
            | [], hnp, _ => exact absurd rfl hnp
            | c₂ :: w, _, hall =>
              have h₂ : bareChar c₂ = true :=
                hall c₂ (List.mem_cons_of_mem _
                  (List.mem_cons_of_mem _ (List.mem_cons_self c₂ w)))
              exact Or.inr ⟨c₂, w, rfl, h₂, rfl⟩
          · by_cases ho : c₁ = 'o'
            · subst ho
              match w, hall with
              | [], _ =>
                rcases htail with rfl | ⟨c', t', rfl, hc'⟩
                · exact Or.inl rfl
                · rcases hc' with rfl | rfl | rfl | rfl <;> exact Or.inl rfl
              | c₂ :: w, hall =>
                have h₂ : bareChar c₂ = true :=
                  hall c₂ (List.mem_cons_of_mem _
                    (List.mem_cons_of_mem _ (List.mem_cons_self c₂ w)))
                by_cases hw : c₂ = 'w'
                · subst hw
                  match w, hall with
                  | [], _ =>
                    rcases htail with rfl | ⟨c', t', rfl, hc'⟩
                    · exact Or.inl rfl
                    · rcases hc' with rfl | rfl | rfl | rfl <;> exact Or.inl rfl
                  | c₃ :: w, hall =>
                    have h₃ : bareChar c₃ = true :=
                      hall c₃ (List.mem_cons_of_mem _ (List.mem_cons_of_mem _
                        (List.mem_cons_of_mem _ (List.mem_cons_self c₃ w))))
                    rcases bareChar_cases h₃ with rfl | rfl | rfl | rfl | rfl | rfl | rfl |
                      rfl | rfl | rfl | rfl | rfl | rfl | rfl | rfl | rfl | rfl | rfl |
                      rfl | rfl | rfl | rfl | rfl | rfl | rfl | rfl <;> exact Or.inl rfl
                · rcases bareChar_cases h₂ with rfl | rfl | rfl | rfl | rfl | rfl | rfl |
                    rfl | rfl | rfl | rfl | rfl | rfl | rfl | rfl | rfl | rfl | rfl |
                    rfl | rfl | rfl | rfl | rfl | rfl | rfl | rfl <;>
                    first
                      | exact Or.inl rfl
                      | exact absurd rfl hw
            · rcases bareChar_cases h₁ with rfl | rfl | rfl | rfl | rfl | rfl | rfl |
                rfl | rfl | rfl | rfl | rfl | rfl | rfl | rfl | rfl | rfl | rfl |
                rfl | rfl | rfl | rfl | rfl | rfl | rfl | rfl <;>
                first
                  | exact Or.inl rfl
                  | exact absurd rfl hi
                  | exact absurd rfl ho
      · by_cases hx : c₀ = 'x'
        · subst hx
          match w, hall with
          | [], _ =>
            rcases htail with rfl | ⟨c', t', rfl, hc'⟩
            · exact Or.inl rfl
            · rcases hc' with rfl | rfl | rfl | rfl <;> exact Or.inl rfl
          | c₁ :: w, hall =>
            have h₁ : bareChar c₁ = true :=
              hall c₁ (List.mem_cons_of_mem _ (List.mem_cons_self c₁ w))
            rcases bareChar_cases h₁ with rfl | rfl | rfl | rfl | rfl | rfl | rfl |
              rfl | rfl | rfl | rfl | rfl | rfl | rfl | rfl | rfl | rfl | rfl |
              rfl | rfl | rfl | rfl | rfl | rfl | rfl | rfl <;> exact Or.inl rfl
        · rcases bareChar_cases h₀ with rfl | rfl | rfl | rfl | rfl | rfl | rfl |
            rfl | rfl | rfl | rfl | rfl | rfl | rfl | rfl | rfl | rfl | rfl |
            rfl | rfl | rfl | rfl | rfl | rfl | rfl | rfl <;>
            first
              | exact Or.inl rfl
              | exact absurd rfl hp
              | exact absurd rfl hx

/-- The reader either fails on a printed factor or gets stuck at a
letter, leaving a nonempty rest. -/
def FacBad (g : Expr) : Prop :=
  ∀ (fuel : ℕ) (tail : List Char), facStop tail → Rc .fac g ≤ fuel →
    parseGo fuel .fac (ccodeGo piChars .fac g ++ tail) = none ∨
      ∃ ast c t, parseGo fuel .fac (ccodeGo piChars .fac g ++ tail) = some (ast, c :: t) ∧
        bareChar c = true

/-- The reader either fails on a printed term or gets stuck at a
letter. -/
def TermBad (e : Expr) : Prop :=
  ∀ (fuel : ℕ) (tail : List Char), termStop tail → Rc .term e ≤ fuel →
    parseGo fuel .term (ccodeGo piChars .term e ++ tail) = none ∨
      ∃ ast c t, parseGo fuel .term (ccodeGo piChars .term e ++ tail) = some (ast, c :: t) ∧
        bareChar c = true

/-- The reader either fails on a printed sum or gets stuck at a
letter. -/
def SumBad (e : Expr) : Prop :=
  ∀ (fuel : ℕ) (tail : List Char), sumStop tail → Rc .sum e ≤ fuel →
    parseGo fuel .sum (ccodeGo piChars .sum e ++ tail) = none ∨
      ∃ ast c t, parseGo fuel .sum (ccodeGo piChars .sum e ++ tail) = some (ast, c :: t) ∧
        bareChar c = true

/-- The factor loop on further factors one of which mentions a symbol:
the parse fails or sticks at a letter. -/
theorem parse_termLoop_bad :
    ∀ (gs : List Expr), (∀ g ∈ gs, isMulE g = false) →
      (∀ g ∈ gs, hasVar g = true → FacBad g) →
      (∃ g ∈ gs, hasVar g = true) →
      ∀ (acc : CExpr) (fuel : ℕ) (tail : List Char), termStop tail →
        RLF gs + 1 ≤ fuel →
        parseGo fuel (.termLoop acc) (facsTail piChars gs ++ tail) = none ∨
          ∃ ast c t, parseGo fuel (.termLoop acc) (facsTail piChars gs ++ tail) =
              some (ast, c :: t) ∧ bareChar c = true := by
  intro gs
  induction gs with
  | nil =>
    intro _ _ hvar
    rcases hvar with ⟨g, hg, _⟩
    exact absurd hg (List.not_mem_nil g)
  | cons g gs ih =>
    intro hnm hfac hvar acc fuel tail ht hfu
    have hcost : RLF (g :: gs) = Rc .fac g + 2 + RLF gs := rfl
    have hone := one_le_Rc g .fac
    match fuel, hfu with
    | fu + 1, hfu =>
      have hstop : facStop (facsTail piChars gs ++ tail) := by
        match gs with
        | [] => simpa using termStop_facStop ht
        | g' :: gs' =>
          show facStop ((('*' :: ccodeGo piChars .fac g') ++ facsTail piChars gs') ++ tail)
          simp only [List.cons_append]
          exact Or.inl rfl
      by_cases hv0 : hasVar g = true
      · rcases hfac g (List.mem_cons_self g gs) hv0 fu
          (facsTail piChars gs ++ tail) hstop (by omega) with hnone | ⟨ast, c, t, hp, hc⟩
        · left
          show parseGo (fu + 1) (.termLoop acc)
            ((('*' :: ccodeGo piChars .fac g) ++ facsTail piChars gs) ++ tail) = none
          simp only [List.cons_append, List.append_assoc]
          show (match parseGo fu .fac
              (ccodeGo piChars .fac g ++ (facsTail piChars gs ++ tail)) with
            | some (a, r) => parseGo fu (.termLoop (.cmul acc a)) r
            | none => none) = none
          rw [hnone]
        · right
          refine ⟨.cmul acc ast, c, t, ?_, hc⟩
          show parseGo (fu + 1) (.termLoop acc)
            ((('*' :: ccodeGo piChars .fac g) ++ facsTail piChars gs) ++ tail) =
              some (.cmul acc ast, c :: t)
          simp only [List.cons_append, List.append_assoc]
          show (match parseGo fu .fac
              (ccodeGo piChars .fac g ++ (facsTail piChars gs ++ tail)) with
            | some (a, r) => parseGo fu (.termLoop (.cmul acc a)) r
            | none => none) = some (.cmul acc ast, c :: t)
          rw [hp]
          match fu, (by omega : 1 ≤ fu) with
          | fv + 1, _ => exact parseGo_termLoop_letter (.cmul acc ast) fv hc t
      · have hnv : hasVar g = false := by simpa using hv0
        have hok : FacOK g :=
          (parse_print (sizeE g) g (le_refl _) (novar_coordOnly g hnv)).1
            (hnm g (List.mem_cons_self g gs))
        obtain ⟨astg, hpg, _⟩ := hok fu (facsTail piChars gs ++ tail) hstop (by omega)
        have hvgs : ∃ g' ∈ gs, hasVar g' = true := by
          rcases hvar with ⟨g', hg', hv'⟩
          rcases List.mem_cons.mp hg' with rfl | hmem
          · exact absurd hv' hv0
          · exact ⟨g', hmem, hv'⟩
        rcases ih (fun g' hg' => hnm g' (List.mem_cons_of_mem g hg'))
            (fun g' hg' => hfac g' (List.mem_cons_of_mem g hg'))
            hvgs (.cmul acc astg) fu tail ht (by omega) with hnone | ⟨ast, c, t, hp, hc⟩
        · left
          show parseGo (fu + 1) (.termLoop acc)
            ((('*' :: ccodeGo piChars .fac g) ++ facsTail piChars gs) ++ tail) = none
          simp only [List.cons_append, List.append_assoc]
          show (match parseGo fu .fac
              (ccodeGo piChars .fac g ++ (facsTail piChars gs ++ tail)) with
            | some (a, r) => parseGo fu (.termLoop (.cmul acc a)) r
            | none => none) = none
          rw [hpg]
          exact hnone
        · right
          refine ⟨ast, c, t, ?_, hc⟩
          show parseGo (fu + 1) (.termLoop acc)
            ((('*' :: ccodeGo piChars .fac g) ++ facsTail piChars gs) ++ tail) =
              some (ast, c :: t)
          simp only [List.cons_append, List.append_assoc]
          show (match parseGo fu .fac
              (ccodeGo piChars .fac g ++ (facsTail piChars gs ++ tail)) with
            | some (a, r) => parseGo fu (.termLoop (.cmul acc a)) r
            | none => none) = some (ast, c :: t)
          rw [hpg]
          exact hp

/-- The sum loop on further terms one of which mentions a symbol: the
parse fails or sticks at a letter. -/
theorem parse_sumLoop_bad :
    ∀ (ts : List Expr),
      (∀ t ∈ ts, hasVar t = true → TermBad t ∧ TermBad (negTerm t)) →
      (∃ t ∈ ts, hasVar t = true) →
      ∀ (acc : CExpr) (fuel : ℕ) (tail : List Char), sumStop tail →
        RLS ts + 1 ≤ fuel →
        parseGo fuel (.sumLoop acc) (sumTails piChars ts ++ tail) = none ∨
          ∃ ast c t, parseGo fuel (.sumLoop acc) (sumTails piChars ts ++ tail) =
              some (ast, c :: t) ∧ bareChar c = true := by
  intro ts
  induction ts with
  | nil =>
    intro _ hvar
    rcases hvar with ⟨t, ht, _⟩
    exact absurd ht (List.not_mem_nil t)
  | cons t ts ih =>
    intro hterm hvar acc fuel tail ht hfu
    have hcost : RLS (t :: ts) = Rc .term t + 2 + RLS ts := rfl
    have hone := one_le_Rc t .term
    match fuel, hfu with
    | fu + 1, hfu =>
      have hstop : termStop (sumTails piChars ts ++ tail) := by
        match ts with
        | [] => simpa using sumStop_termStop ht
        | t' :: ts' =>
          show termStop ((sepRender piChars t' ++ sumTails piChars ts') ++ tail)
          unfold sepRender
          by_cases hn : termIsNeg t'
          · rw [if_pos hn]
            simp only [List.cons_append]
            exact Or.inl rfl
          · rw [if_neg hn]
            simp only [List.cons_append]
            exact Or.inl rfl
      by_cases hv0 : hasVar t = true
      · by_cases hn : termIsNeg t
        · rcases (hterm t (List.mem_cons_self t ts) hv0).2 fu
            (sumTails piChars ts ++ tail) hstop (by rw [Rc_negTerm]; omega)
            with hnone | ⟨ast, c, tl, hp, hc⟩
          · left
            show parseGo (fu + 1) (.sumLoop acc)
              ((sepRender piChars t ++ sumTails piChars ts) ++ tail) = none
            unfold sepRender
            rw [if_pos hn, ccodeA_eq_negTerm]
            simp only [List.cons_append, List.append_assoc]
            show (match parseGo fu .term
                (ccodeGo piChars .term (negTerm t) ++ (sumTails piChars ts ++ tail)) with
              | some (a, r) => parseGo fu (.sumLoop (.csub acc a)) r
              | none => none) = none
            rw [hnone]
          · right
            refine ⟨.csub acc ast, c, tl, ?_, hc⟩
            show parseGo (fu + 1) (.sumLoop acc)
              ((sepRender piChars t ++ sumTails piChars ts) ++ tail) =
                some (.csub acc ast, c :: tl)
            unfold sepRender
            rw [if_pos hn, ccodeA_eq_negTerm]
            simp only [List.cons_append, List.append_assoc]
            show (match parseGo fu .term
                (ccodeGo piChars .term (negTerm t) ++ (sumTails piChars ts ++ tail)) with
              | some (a, r) => parseGo fu (.sumLoop (.csub acc a)) r
              | none => none) = some (.csub acc ast, c :: tl)
            rw [hp]
            match fu, (by omega : 1 ≤ fu) with
            | fv + 1, _ => exact parseGo_sumLoop_letter (.csub acc ast) fv hc tl
        · rcases (hterm t (List.mem_cons_self t ts) hv0).1 fu
            (sumTails piChars ts ++ tail) hstop (by omega)
            with hnone | ⟨ast, c, tl, hp, hc⟩
          · left
            show parseGo (fu + 1) (.sumLoop acc)
              ((sepRender piChars t ++ sumTails piChars ts) ++ tail) = none
            unfold sepRender
            rw [if_neg hn]
            simp only [List.cons_append, List.append_assoc]
            show (match parseGo fu .term
                (ccodeGo piChars .term t ++ (sumTails piChars ts ++ tail)) with
              | some (a, r) => parseGo fu (.sumLoop (.cadd acc a)) r
              | none => none) = none
            rw [hnone]
          · right
            refine ⟨.cadd acc ast, c, tl, ?_, hc⟩
            show parseGo (fu + 1) (.sumLoop acc)
              ((sepRender piChars t ++ sumTails piChars ts) ++ tail) =
                some (.cadd acc ast, c :: tl)
            unfold sepRender
            rw [if_neg hn]
            simp only [List.cons_append, List.append_assoc]
            show (match parseGo fu .term
                (ccodeGo piChars .term t ++ (sumTails piChars ts ++ tail)) with
              | some (a, r) => parseGo fu (.sumLoop (.cadd acc a)) r
              | none => none) = some (.cadd acc ast, c :: tl)
            rw [hp]
            match fu, (by omega : 1 ≤ fu) with
            | fv + 1, _ => exact parseGo_sumLoop_letter (.cadd acc ast) fv hc tl
      · have hnv : hasVar t = false := by simpa using hv0
        have hvts : ∃ t' ∈ ts, hasVar t' = true := by
          rcases hvar with ⟨t', ht', hv'⟩
          rcases List.mem_cons.mp ht' with rfl | hmem
          · exact absurd hv' hv0
          · exact ⟨t', hmem, hv'⟩
        have ihts := ih (fun t' ht' => hterm t' (List.mem_cons_of_mem t ht')) hvts
        by_cases hn : termIsNeg t
        · have hok : TermOK (negTerm t) :=
            (parse_print (sizeE (negTerm t)) (negTerm t) (le_refl _)
              (novar_coordOnly (negTerm t) (by rw [hasVar_negTerm]; exact hnv))).2.1
          obtain ⟨astt, hpt, _⟩ := hok fu (sumTails piChars ts ++ tail) hstop
            (by rw [Rc_negTerm]; omega)
          rcases ihts (.csub acc astt) fu tail ht (by omega)
            with hnone | ⟨ast, c, tl, hp, hc⟩
          · left
            show parseGo (fu + 1) (.sumLoop acc)
              ((sepRender piChars t ++ sumTails piChars ts) ++ tail) = none
            unfold sepRender
            rw [if_pos hn, ccodeA_eq_negTerm]
            simp only [List.cons_append, List.append_assoc]
            show (match parseGo fu .term
                (ccodeGo piChars .term (negTerm t) ++ (sumTails piChars ts ++ tail)) with
              | some (a, r) => parseGo fu (.sumLoop (.csub acc a)) r
              | none => none) = none
            rw [hpt]
            exact hnone
          · right
            refine ⟨ast, c, tl, ?_, hc⟩
            show parseGo (fu + 1) (.sumLoop acc)
              ((sepRender piChars t ++ sumTails piChars ts) ++ tail) = some (ast, c :: tl)
            unfold sepRender
            rw [if_pos hn, ccodeA_eq_negTerm]
            simp only [List.cons_append, List.append_assoc]
            show (match parseGo fu .term
                (ccodeGo piChars .term (negTerm t) ++ (sumTails piChars ts ++ tail)) with
              | some (a, r) => parseGo fu (.sumLoop (.csub acc a)) r
              | none => none) = some (ast, c :: tl)
            rw [hpt]
            exact hp
        · have hok : TermOK t :=
            (parse_print (sizeE t) t (le_refl _) (novar_coordOnly t hnv)).2.1
          obtain ⟨astt, hpt, _⟩ := hok fu (sumTails piChars ts ++ tail) hstop (by omega)
          rcases ihts (.cadd acc astt) fu tail ht (by omega)
            with hnone | ⟨ast, c, tl, hp, hc⟩
          · left
            show parseGo (fu + 1) (.sumLoop acc)
              ((sepRender piChars t ++ sumTails piChars ts) ++ tail) = none
            unfold sepRender
            rw [if_neg hn]
            simp only [List.cons_append, List.append_assoc]
            show (match parseGo fu .term
                (ccodeGo piChars .term t ++ (sumTails piChars ts ++ tail)) with
              | some (a, r) => parseGo fu (.sumLoop (.cadd acc a)) r
              | none => none) = none
            rw [hpt]
            exact hnone
          · right
            refine ⟨ast, c, tl, ?_, hc⟩
            show parseGo (fu + 1) (.sumLoop acc)
              ((sepRender piChars t ++ sumTails piChars ts) ++ tail) = some (ast, c :: tl)
            unfold sepRender
            rw [if_neg hn]
            simp only [List.cons_append, List.append_assoc]
            show (match parseGo fu .term
                (ccodeGo piChars .term t ++ (sumTails piChars ts ++ tail)) with
              | some (a, r) => parseGo fu (.sumLoop (.cadd acc a)) r
              | none => none) = some (ast, c :: tl)
            rw [hpt]
            exact hp

/-- A failing term parse is assembled along the factor spine once some
factor mentions a symbol. -/
theorem TermBad_of_factors (e : Expr)
    (hfac : ∀ g ∈ mulFactors e, hasVar g = true → FacBad g)
    (hvar : ∃ g ∈ mulFactors e, hasVar g = true) : TermBad e := by
  intro fuel tail ht hfu
  obtain ⟨g₀, gs, hsp, hrc⟩ := Rc_term_spine e
  obtain ⟨g₀', gs', hsp', hrender⟩ := ccodeF_spine piChars e
  rw [hsp] at hsp'
  injection hsp' with h1 h2
  subst h1
  subst h2
  have hone := one_le_Rc e .term
  have hone₀ := one_le_Rc g₀ .fac
  match fuel, (by omega : 1 ≤ fuel) with
  | fu + 1, _ =>
    have hstop : facStop (facsTail piChars gs ++ tail) := by
      match gs with
      | [] => simpa using termStop_facStop ht
      | g' :: gs' =>
        show facStop ((('*' :: ccodeGo piChars .fac g') ++ facsTail piChars gs') ++ tail)
        simp only [List.cons_append]
        exact Or.inl rfl
    by_cases hv0 : hasVar g₀ = true
    · rcases hfac g₀ (by rw [hsp]; exact List.mem_cons_self _ _) hv0 fu
        (facsTail piChars gs ++ tail) hstop (by omega) with hnone | ⟨ast, c, t, hp, hc⟩
      · left
        show parseGo (fu + 1) .term (ccodeGo piChars .term e ++ tail) = none
        rw [ccodeT_eq_ccodeF, hrender]
        simp only [List.append_assoc]
        show (match parseGo fu .fac
            (ccodeGo piChars .fac g₀ ++ (facsTail piChars gs ++ tail)) with
          | some (a, r) => parseGo fu (.termLoop a) r
          | none => none) = none
        rw [hnone]
      · right
        refine ⟨ast, c, t, ?_, hc⟩
        show parseGo (fu + 1) .term (ccodeGo piChars .term e ++ tail) = some (ast, c :: t)
        rw [ccodeT_eq_ccodeF, hrender]
        simp only [List.append_assoc]
        show (match parseGo fu .fac
            (ccodeGo piChars .fac g₀ ++ (facsTail piChars gs ++ tail)) with
          | some (a, r) => parseGo fu (.termLoop a) r
          | none => none) = some (ast, c :: t)
        rw [hp]
        match fu, (by omega : 1 ≤ fu) with
        | fv + 1, _ => exact parseGo_termLoop_letter ast fv hc t
    · have hnv : hasVar g₀ = false := by simpa using hv0
      have hok : FacOK g₀ :=
        (parse_print (sizeE g₀) g₀ (le_refl _) (novar_coordOnly g₀ hnv)).1
          (mulFactors_not_mul e g₀ (by rw [hsp]; exact List.mem_cons_self _ _))
      obtain ⟨ast₀, hp₀, _⟩ := hok fu (facsTail piChars gs ++ tail) hstop (by omega)
      have hvgs : ∃ g' ∈ gs, hasVar g' = true := by
        rcases hvar with ⟨g', hg', hv'⟩
        rw [hsp] at hg'
        rcases List.mem_cons.mp hg' with rfl | hmem
        · exact absurd hv' hv0
        · exact ⟨g', hmem, hv'⟩
      rcases parse_termLoop_bad gs
          (fun g' hg' => mulFactors_not_mul e g' (by rw [hsp]; exact List.mem_cons_of_mem _ hg'))
          (fun g' hg' => hfac g' (by rw [hsp]; exact List.mem_cons_of_mem _ hg'))
          hvgs ast₀ fu tail ht (by omega) with hnone | ⟨ast, c, t, hp, hc⟩
      · left
        show parseGo (fu + 1) .term (ccodeGo piChars .term e ++ tail) = none
        rw [ccodeT_eq_ccodeF, hrender]
        simp only [List.append_assoc]
        show (match parseGo fu .fac
            (ccodeGo piChars .fac g₀ ++ (facsTail piChars gs ++ tail)) with
          | some (a, r) => parseGo fu (.termLoop a) r
          | none => none) = none
        rw [hp₀]
        exact hnone
      · right
        refine ⟨ast, c, t, ?_, hc⟩
        show parseGo (fu + 1) .term (ccodeGo piChars .term e ++ tail) = some (ast, c :: t)
        rw [ccodeT_eq_ccodeF, hrender]
        simp only [List.append_assoc]
        show (match parseGo fu .fac
            (ccodeGo piChars .fac g₀ ++ (facsTail piChars gs ++ tail)) with
          | some (a, r) => parseGo fu (.termLoop a) r
          | none => none) = some (ast, c :: t)
        rw [hp₀]
        exact hp

/-- A failing sum parse is assembled along the term spine once some term
mentions a symbol. -/
theorem SumBad_of_terms (e : Expr)
    (hterm : ∀ t ∈ sumTerms e, hasVar t = true → TermBad t ∧ TermBad (negTerm t))
    (hvar : ∃ t ∈ sumTerms e, hasVar t = true) : SumBad e := by
  intro fuel tail ht hfu
  obtain ⟨t₀, ts, hsp, hrc⟩ := Rc_sum_spine e
  obtain ⟨t₀', ts', hsp', hrender⟩ := ccodeS_spine piChars e
  rw [hsp] at hsp'
  injection hsp' with h1 h2
  subst h1
  subst h2
  have hone := one_le_Rc e .sum
  have hone₀ := one_le_Rc t₀ .term
  match fuel, (by omega : 1 ≤ fuel) with
  | fu + 1, _ =>
    have hstop : termStop (sumTails piChars ts ++ tail) := by
      match ts with
      | [] => simpa using sumStop_termStop ht
      | t' :: ts' =>
        show termStop ((sepRender piChars t' ++ sumTails piChars ts') ++ tail)
        unfold sepRender
        by_cases hn : termIsNeg t'
        · rw [if_pos hn]
          simp only [List.cons_append]
          exact Or.inl rfl
        · rw [if_neg hn]
          simp only [List.cons_append]
          exact Or.inl rfl
    by_cases hv0 : hasVar t₀ = true
    · rcases (hterm t₀ (by rw [hsp]; exact List.mem_cons_self _ _) hv0).1 fu
        (sumTails piChars ts ++ tail) hstop (by omega) with hnone | ⟨ast, c, t, hp, hc⟩
      · left
        show parseGo (fu + 1) .sum (ccodeGo piChars .sum e ++ tail) = none
        rw [hrender]
        simp only [List.append_assoc]
        show (match parseGo fu .term
            (ccodeGo piChars .term t₀ ++ (sumTails piChars ts ++ tail)) with
          | some (a, r) => parseGo fu (.sumLoop a) r
          | none => none) = none
        rw [hnone]
      · right
        refine ⟨ast, c, t, ?_, hc⟩
        show parseGo (fu + 1) .sum (ccodeGo piChars .sum e ++ tail) = some (ast, c :: t)
        rw [hrender]
        simp only [List.append_assoc]
        show (match parseGo fu .term
            (ccodeGo piChars .term t₀ ++ (sumTails piChars ts ++ tail)) with
          | some (a, r) => parseGo fu (.sumLoop a) r
          | none => none) = some (ast, c :: t)
        rw [hp]
        match fu, (by omega : 1 ≤ fu) with
        | fv + 1, _ => exact parseGo_sumLoop_letter ast fv hc t
    · have hnv : hasVar t₀ = false := by simpa using hv0
      have hok : TermOK t₀ :=
        (parse_print (sizeE t₀) t₀ (le_refl _) (novar_coordOnly t₀ hnv)).2.1
      obtain ⟨ast₀, hp₀, _⟩ := hok fu (sumTails piChars ts ++ tail) hstop (by omega)
      have hvts : ∃ t' ∈ ts, hasVar t' = true := by
        rcases hvar with ⟨t', ht', hv'⟩
        rw [hsp] at ht'
        rcases List.mem_cons.mp ht' with rfl | hmem
        · exact absurd hv' hv0
        · exact ⟨t', hmem, hv'⟩
      rcases parse_sumLoop_bad ts
          (fun t' ht' => hterm t' (by rw [hsp]; exact List.mem_cons_of_mem _ ht'))
          hvts ast₀ fu tail ht (by omega) with hnone | ⟨ast, c, t, hp, hc⟩
      · left
        show parseGo (fu + 1) .sum (ccodeGo piChars .sum e ++ tail) = none
        rw [hrender]
        simp only [List.append_assoc]
        show (match parseGo fu .term
            (ccodeGo piChars .term t₀ ++ (sumTails piChars ts ++ tail)) with
          | some (a, r) => parseGo fu (.sumLoop a) r
          | none => none) = none
        rw [hp₀]
        exact hnone
      · right
        refine ⟨ast, c, t, ?_, hc⟩
        show parseGo (fu + 1) .sum (ccodeGo piChars .sum e ++ tail) = some (ast, c :: t)
        rw [hrender]
        simp only [List.append_assoc]
        show (match parseGo fu .term
            (ccodeGo piChars .term t₀ ++ (sumTails piChars ts ++ tail)) with
          | some (a, r) => parseGo fu (.sumLoop a) r
          | none => none) = some (ast, c :: t)
        rw [hp₀]
        exact hp

/-- Main failure induction: the reader rejects (or gets stuck inside)
the printed form of any expression over bare symbol names that mentions
at least one symbol. -/
theorem parse_bad :
    ∀ (N : ℕ) (e : Expr), sizeE e ≤ N → varsAll bareName e = true → hasVar e = true →
      (isMulE e = false → FacBad e) ∧ TermBad e ∧ SumBad e := by
  intro N
  induction N with
  | zero =>
    intro e hsz
    exact absurd hsz (by have := one_le_sizeE e; omega)
  | succ N ih =>
    intro e hsz hb hv
    cases e with
    | const c => exact absurd hv (by simp [hasVar])
    | pi => exact absurd hv (by simp [hasVar])
    | var s =>
      have hbs : bareName s = true := hb
      have hbs' := hbs
      simp only [bareName, Bool.and_eq_true] at hbs'
      have hdne : s.data ≠ [] := by
        intro heq
        have h1 := hbs'.1.1
        rw [heq] at h1
        simp at h1
      have hdall : ∀ c ∈ s.data, bareChar c = true := List.all_eq_true.mp hbs'.1.2
      have hdnp : s.data ≠ ['p', 'i'] := by
        intro heq
        have h3 := hbs'.2
        rw [heq] at h3
        simp at h3
      have hfacB : FacBad (.var s) := by
        intro fuel tail ht _
        rcases fac_bareList s.data hdne hdall hdnp fuel tail ht with h | ⟨c, t, _, hc, hp⟩
        · exact Or.inl h
        · exact Or.inr ⟨.cpi, c, t ++ tail, hp, hc⟩
      have htermB : TermBad (.var s) := by
        refine TermBad_of_factors _ ?_ ⟨.var s, List.mem_singleton_self _, rfl⟩
        intro g hg _
        rcases List.mem_singleton.mp hg with rfl
        exact hfacB
      have hsumB : SumBad (.var s) := by
        refine SumBad_of_terms _ ?_ ⟨.var s, List.mem_singleton_self _, rfl⟩
        intro t htm _
        rcases List.mem_singleton.mp htm with rfl
        exact ⟨htermB, htermB⟩
      exact ⟨fun _ => hfacB, htermB, hsumB⟩
    | add a b =>
      have hba : varsAll bareName a = true ∧ varsAll bareName b = true :=
        Bool.and_eq_true_iff.mp hb
      have hsumB : SumBad (.add a b) := by
        refine SumBad_of_terms _ ?_ (sumTerms_hasVar _ hv)
        intro t htm hvt
        have htm' : t ∈ sumTerms a ++ [b] := htm
        have hsize : sizeE t ≤ N := by
          simp only [sizeE] at hsz
          rcases List.mem_append.mp htm' with h | h
          · have h1 := sumTerms_size a t h
            have h2 := one_le_sizeE b
            omega
          · rcases List.mem_singleton.mp h with rfl
            have h1 := one_le_sizeE a
            omega
        have hbt : varsAll bareName t = true := sumTerms_varsAll bareName (.add a b) hb t htm
        refine ⟨(ih t hsize hbt hvt).2.1, ?_⟩
        have h2 : sizeE (negTerm t) ≤ N := by rw [sizeE_negTerm]; exact hsize
        have h3 : varsAll bareName (negTerm t) = true := by
          rw [varsAll_negTerm]
          exact hbt
        have h4 : hasVar (negTerm t) = true := by
          rw [hasVar_negTerm]
          exact hvt
        exact (ih (negTerm t) h2 h3 h4).2.1
      have hfacB : FacBad (.add a b) := by
        intro fuel tail ht hfu
        have hr : Rc .fac (.add a b) = Rc .sum a + Rc .term b + 4 := rfl
        have hr2 : Rc .sum (.add a b) = Rc .sum a + Rc .term b + 2 := rfl
        have hone := one_le_Rc (.add a b) .fac
        match fuel, (by omega : 1 ≤ fuel) with
        | fu + 1, _ =>
          have hstr : ccodeGo piChars .fac (.add a b) ++ tail =
              '(' :: (ccodeGo piChars .sum (.add a b) ++ (')' :: tail)) := by
            show (('(' :: ccodeGo piChars .sum (.add a b)) ++ [')']) ++ tail = _
            simp [List.append_assoc]
          rcases hsumB fu (')' :: tail) (Or.inl rfl) (by omega)
            with hnone | ⟨ast, c, t, hp, hc⟩
          · left
            rw [hstr]
            exact parseGo_fac_paren_none fu _ hnone
          · left
            rw [hstr]
            exact parseGo_fac_paren_letter fu _ ast hc t hp
      have htermB : TermBad (.add a b) := by
        refine TermBad_of_factors _ ?_ ⟨.add a b, List.mem_singleton_self _, hv⟩
        intro g hg _
        rcases List.mem_singleton.mp hg with rfl
        exact hfacB
      exact ⟨fun _ => hfacB, htermB, hsumB⟩
    | mul a b =>
      have hba : varsAll bareName a = true ∧ varsAll bareName b = true :=
        Bool.and_eq_true_iff.mp hb
      have hfacs : ∀ g ∈ mulFactors (.mul a b), hasVar g = true → FacBad g := by
        intro g hg hvg
        have hg' : g ∈ mulFactors a ++ mulFactors b := hg
        have hgsz : sizeE g ≤ N := by
          simp only [sizeE] at hsz
          rcases List.mem_append.mp hg' with h | h
          · have h1 := mulFactors_size a g h
            have h2 := one_le_sizeE b
            omega
          · have h1 := mulFactors_size b g h
            have h2 := one_le_sizeE a
            omega
        have hbg : varsAll bareName g = true := mulFactors_varsAll bareName (.mul a b) hb g hg
        exact (ih g hgsz hbg hvg).1 (mulFactors_not_mul _ g hg)
      have htermB : TermBad (.mul a b) :=
        TermBad_of_factors _ hfacs (mulFactors_hasVar _ hv)
      have htermBN : TermBad (.mul (negTerm a) b) := by
        have hbna : varsAll bareName (negTerm a) = true := by
          rw [varsAll_negTerm]
          exact hba.1
        have hvm : hasVar (.mul (negTerm a) b) = true := by
          show (hasVar (negTerm a) || hasVar b) = true
          rw [hasVar_negTerm]
          exact hv
        refine TermBad_of_factors _ ?_ (mulFactors_hasVar _ hvm)
        intro g hg hvg
        have hg' : g ∈ mulFactors (negTerm a) ++ mulFactors b := hg
        rcases List.mem_append.mp hg' with h | h
        · have hgsz : sizeE g ≤ N := by
            have h1 := mulFactors_size (negTerm a) g h
            rw [sizeE_negTerm] at h1
            have h2 := one_le_sizeE b
            simp only [sizeE] at hsz
            omega
          have hbg := mulFactors_varsAll bareName (negTerm a) hbna g h
          exact (ih g hgsz hbg hvg).1 (mulFactors_not_mul (negTerm a) g h)
        · have hgsz : sizeE g ≤ N := by
            have h1 := mulFactors_size b g h
            have h2 := one_le_sizeE a
            simp only [sizeE] at hsz
            omega
          have hbg := mulFactors_varsAll bareName b hba.2 g h
          exact (ih g hgsz hbg hvg).1 (mulFactors_not_mul b g h)
      have hsumB : SumBad (.mul a b) := by
        refine SumBad_of_terms _ ?_ ⟨.mul a b, List.mem_singleton_self _, hv⟩
        intro t htm _
        rcases List.mem_singleton.mp htm with rfl
        exact ⟨htermB, htermBN⟩
      refine ⟨fun hmm => absurd hmm (by simp [isMulE]), htermB, hsumB⟩
    | pow a k =>
      have hsza : sizeE a ≤ N := by
        simp only [sizeE] at hsz
        omega
      have hsumA : SumBad a := (ih a hsza hb hv).2.2
      have hfacB : FacBad (.pow a k) := by
        intro fuel tail ht hfu
        have hr : Rc .fac (.pow a k) = Rc .sum a + 2 := rfl
        have hone := one_le_Rc (.pow a k) .fac
        match fuel, (by omega : 1 ≤ fuel) with
        | fu + 1, _ =>
          have hstr : ccodeGo piChars .fac (.pow a k) ++ tail =
              'p' :: 'o' :: 'w' :: '(' ::
                (ccodeGo piChars .sum a ++
                  (',' :: ' ' :: (renderNat k ++ (')' :: tail)))) := by
            show ('p' :: 'o' :: 'w' :: '(' ::
              (ccodeGo piChars .sum a ++ ',' :: ' ' :: renderNat k ++ [')'])) ++ tail = _
            simp [List.append_assoc]
          rcases hsumA fu (',' :: ' ' :: (renderNat k ++ (')' :: tail))) (Or.inr rfl)
            (by omega) with hnone | ⟨ast, c, t, hp, hc⟩
          · left
            rw [hstr]
            exact parseGo_fac_pow_none fu _ hnone
          · left
            rw [hstr]
            exact parseGo_fac_pow_letter fu _ ast hc t hp
      have htermB : TermBad (.pow a k) := by
        refine TermBad_of_factors _ ?_ ⟨.pow a k, List.mem_singleton_self _, hv⟩
        intro g hg _
        rcases List.mem_singleton.mp hg with rfl
        exact hfacB
      have hsumB : SumBad (.pow a k) := by
        refine SumBad_of_terms _ ?_ ⟨.pow a k, List.mem_singleton_self _, hv⟩
        intro t htm _
        rcases List.mem_singleton.mp htm with rfl
        exact ⟨htermB, htermB⟩
      exact ⟨fun _ => hfacB, htermB, hsumB⟩

/-- C10 counterexample: the expression consisting of the single symbol
named `pi` is built over a symbol whose name is not one of the
indexed-access coordinate names, yet its emitted string is accepted by
the external evaluator's grammar — it reads back as the constant `pi` —
so universal invalidity over all other-named symbols fails. -/
theorem bare_name_collision_cex :
    varsAll (fun s => !(s = "x[0]" || s = "x[1]")) (Expr.var "pi") = true ∧
      occursVar "pi" (Expr.var "pi") = true ∧
      ∀ piv a b : ℚ, evalEmitted (emit (Expr.var "pi")).data piv a b = some piv :=
  ⟨by decide, by decide, fun _ _ _ => rfl⟩

/-- C10: the code emitter performs no coordinate-name translation.  For
every expression built over bare symbol names (nonempty lowercase-letter
names other than the evaluator's reserved constant name `pi`) that
mentions at least one symbol, every symbol's literal name appears
verbatim in the emitted string, and the emitted string is rejected by
the external evaluator's positional-indexing grammar. -/
theorem emitter_uses_literal_names (e : Expr)
    (hb : varsAll bareName e = true) (hv : hasVar e = true) :
    (∀ s : String, occursVar s e = true → s.data <:+: (emit e).data) ∧
      ∀ piv a b : ℚ, evalEmitted (emit e).data piv a b = none := by
  have hemit : (emit e).data = ccodeGo piChars .sum e := by
    show emitChars e = _
    exact emitChars_eq_ccodePi e (bareName_noM e hb)
  constructor
  · intro s hs
    rw [hemit]
    exact var_infix_ccodeGo piChars s e .sum hs
  · intro piv a b
    have hsum : SumBad e := (parse_bad (sizeE e) e (le_refl _) hb hv).2.2
    have hfuel : Rc .sum e ≤ 12 * (ccodeGo piChars .sum e).length + 12 := by
      have := Rc_le_len e (bareName_names e hb) .sum
      omega
    rcases hsum (12 * (ccodeGo piChars .sum e).length + 12) [] trivial hfuel
      with hnone | ⟨ast, c, t, hp, _⟩
    · rw [List.append_nil] at hnone
      unfold evalEmitted parseEmitted
      rw [hemit, hnone]
    · rw [List.append_nil] at hp
      unfold evalEmitted parseEmitted
      rw [hemit, hp]

/-- C10 witness: at the `u` expression over the bare names `x` and `y`,
the name `y` appears verbatim in the emitted string and the evaluator
rejects the string. -/
theorem emitter_uses_literal_names_witness :
    (varsAll bareName uBare = true ∧ hasVar uBare = true) ∧
      "y".data <:+: (emit uBare).data ∧
      evalEmitted (emit uBare).data 0 3 5 = none :=
  ⟨⟨by decide, by decide⟩,
    (emitter_uses_literal_names uBare (by decide) (by decide)).1 "y" (by decide),
    (emitter_uses_literal_names uBare (by decide) (by decide)).2 0 3 5⟩
